import Mathlib

/-!
Shallow embedding of the issue-resolution inference engine of
`gfibot/data/update.py` (functions `match_issue_numbers`,
`locate_resolved_issues`, `update_resolved_issues`) together with the
document-store upsert behaviour relevant to `ResolvedIssue` records
(`gfibot/collections.py`).

Modelling conventions:
* timestamps are integers (seconds); `timedelta(minutes=1)` is `60`;
* the Mongo collections `db.repos.issues` and `db.repos.commits` for the
  fixed repository `(owner, name)` are plain Lean lists in natural
  (insertion) order, so the constant `owner`/`name` fields are dropped;
* a Mongo range query on a nullable field (`closed_at: {$gte: since}`,
  `merged_at: {$gt: t1, $lt: t2}`) does not match documents whose field
  is null, hence the `Option Int` matches below;
* `fetcher.get_pull_detail` is a pure function `Nat → PRDetail`;
* Python `str.lower` and the regex classes are modelled on ASCII
  (`Char.toLower`, `Char.isDigit`), which is faithful for ASCII text;
* Python `sorted` is a stable sort, modelled by `List.insertionSort`
  (Mathlib's `orderedInsert` keeps earlier elements before later equal
  ones, exactly like a stable sort).
-/

namespace GfiBot

/-! ### The closing-keyword extractor `match_issue_numbers`

Python source:
```
regex = r"(close[sd]?|fix(es|ed)?|resolve[sd]?) \#(\d+)"
for _, _, number in re.findall(regex, text.lower()):
    numbers.append(int(number))
```
`re.findall` scans left to right, reporting non-overlapping matches; at
each position the alternatives are tried in order and quantifiers are
greedy with backtracking.  The three alternatives start with distinct
letters, so alternative choice is determined by the head character.
-/

/-- Numeric value of a decimal digit string, as Python `int`. -/
def digitsToNat (ds : List Char) : Nat :=
  ds.foldl (fun a c => a * 10 + (c.toNat - 48)) 0

/-- Match a literal character-list prefix, returning the remainder. -/
def matchLit : List Char → List Char → Option (List Char)
  | [], cs => some cs
  | _ :: _, [] => none
  | l :: ls, c :: cs => if c = l then matchLit ls cs else none

/-- Match the regex tail " #(\d+)" (greedy digits) at the head of `cs`,
returning the captured number and the remainder. -/
def matchTail (cs : List Char) : Option (Nat × List Char) :=
  match cs with
  | ' ' :: '#' :: rest =>
    let ds := rest.takeWhile Char.isDigit
    if ds.isEmpty then none
    else some (digitsToNat ds, rest.dropWhile Char.isDigit)
  | _ => none

/-- Try each optional verb suffix in order (then the empty suffix), each
followed by the regex tail; this is the regex engine's backtracking over
`[sd]?` and `(es|ed)?`. -/
def tryOptSuffix : List (List Char) → List Char → Option (Nat × List Char)
  | [], cs => matchTail cs
  | s :: rest, cs =>
    match matchLit s cs with
    | some cs2 =>
      match matchTail cs2 with
      | some r => some r
      | none => tryOptSuffix rest cs
    | none => tryOptSuffix rest cs

def closeChars : List Char := ['c', 'l', 'o', 's', 'e']
def fixChars : List Char := ['f', 'i', 'x']
def resolveChars : List Char := ['r', 'e', 's', 'o', 'l', 'v', 'e']

/-- One attempt of the regex
`(close[sd]?|fix(es|ed)?|resolve[sd]?) #(\d+)` anchored at the head of
`cs`; on success returns the captured number and the remainder after
the whole match. -/
def matchKeywordAt (cs : List Char) : Option (Nat × List Char) :=
  match matchLit closeChars cs with
  | some cs2 => tryOptSuffix [['s'], ['d']] cs2
  | none =>
    match matchLit fixChars cs with
    | some cs2 => tryOptSuffix [['e', 's'], ['e', 'd']] cs2
    | none =>
      match matchLit resolveChars cs with
      | some cs2 => tryOptSuffix [['s'], ['d']] cs2
      | none => none

/-- `re.findall` scan: try a match at every position left to right, and
continue after the end of each successful match.  `fuel` is an upper
bound on the list length (every step consumes at least one character),
making the recursion structural. -/
def scanAux : Nat → List Char → List Nat
  | _, [] => []
  | 0, _ :: _ => []
  | fuel + 1, c :: cs =>
    match matchKeywordAt (c :: cs) with
    | some (n, rest) => n :: scanAux fuel rest
    | none => scanAux fuel cs

/-- `match_issue_numbers` from `gfibot/data/update.py`. -/
def match_issue_numbers (text : String) : List Nat :=
  let cs := text.data.map Char.toLower
  scanAux cs.length cs

/-! ### Data model -/

/-- A commit document of `db.repos.commits` (repo-constant fields
dropped). -/
structure Commit where
  sha : String
  author : Option String
  authored_at : Int
  message : String
deriving DecidableEq

/-- An issue/pull-request document of `db.repos.issues`. -/
structure Issue where
  number : Nat
  user : Option String
  is_pull : Bool
  closed_at : Option Int
  merged_at : Option Int
  title : Option String
  body : Option String
deriving DecidableEq

/-- The result of `fetcher.get_pull_detail`. -/
structure PRDetail where
  comments : List (Option String)
  commits : List String
deriving DecidableEq

/-- The `resolved_in` field: either a commit SHA or a PR number. -/
inductive Artifact where
  | commit (sha : String)
  | pr (number : Nat)
deriving DecidableEq

/-- One entry of the `resolved` mapping in `locate_resolved_issues`
(every write to the defaultdict sets all four fields at once). -/
structure ResolvedRecord where
  number : Nat
  resolver : Option String
  resolved_in : Artifact
  resolver_commit_num : Nat
deriving DecidableEq

/-! ### The insertion-ordered registry (Python dict semantics) -/

/-- Lookup in the registry by issue number. -/
def regFind (reg : List ResolvedRecord) (n : Nat) : Option ResolvedRecord :=
  reg.find? (fun r => r.number == n)

/-- `resolved[num] = record`: update in place if the key is present
(keeping its position), else append — Python insertion-ordered dict. -/
def upsert (reg : List ResolvedRecord) (r : ResolvedRecord) : List ResolvedRecord :=
  if reg.any (fun x => x.number == r.number) then
    reg.map (fun x => if x.number == r.number then r else x)
  else
    reg ++ [r]

/-! ### locate_resolved_issues -/

/-- The sort key relation used for `sorted(all_commits, key=authored_at)`. -/
def commitLE (c1 c2 : Commit) : Prop := c1.authored_at ≤ c2.authored_at

instance : DecidableRel commitLE := fun c1 c2 =>
  inferInstanceAs (Decidable (c1.authored_at ≤ c2.authored_at))

/-- Stable ascending sort by authored time (Python `sorted`). -/
def sortByAuthored (cs : List Commit) : List Commit :=
  List.insertionSort commitLE cs

/-- `author2commits[a]`: the commits grouped under author key `a`. -/
def author2commits (cs : List Commit) (a : Option String) : List Commit :=
  cs.filter (fun c => c.author == a)

/-- `len(commits_before)` in the commit pass: the set of SHAs of the
author's commits authored strictly before `t`. -/
def commitsBeforeCount (cs : List Commit) (a : Option String) (t : Int) : Nat :=
  (((author2commits cs a).filter (fun c2 => decide (c2.authored_at < t))).map
    Commit.sha).dedup.length

/-- Processing of one commit in the commit-based pass (`update.py`
lines 160-180); commits with a null author are skipped. -/
def commitPassStep (closedNums : List Nat) (allCommits : List Commit)
    (reg : List ResolvedRecord) (c : Commit) : List ResolvedRecord :=
  match c.author with
  | none => reg
  | some a =>
    (match_issue_numbers c.message).foldl
      (fun reg2 num =>
        if num ∈ closedNums then
          upsert reg2 ⟨num, some a, Artifact.commit c.sha,
            commitsBeforeCount allCommits (some a) c.authored_at⟩
        else reg2)
      reg

/-- The whole commit-based pass over the sorted commit list. -/
def commitPass (closedNums : List Nat) (allCommits : List Commit) :
    List ResolvedRecord :=
  allCommits.foldl (commitPassStep closedNums allCommits) []

/-- The time-window PR query (`update.py` lines 183-196): pull requests
merged in the open interval `(t - 60, t + 60)` seconds, paired with
their (non-null) merge time. -/
def candidatePRs (issuesDB : List Issue) (t : Int) : List (Issue × Int) :=
  issuesDB.filterMap (fun p =>
    match p.merged_at with
    | some m =>
      if p.is_pull = true ∧ t - 60 < m ∧ m < t + 60 then some (p, m) else none
    | none => none)

/-- `"\n".join([t for t in [title, body, *comments] if t is not None])`. -/
def prText (pr : Issue) (det : PRDetail) : String :=
  String.intercalate "\n" (([pr.title, pr.body] ++ det.comments).filterMap id)

/-- `len(commits_before)` in the PR pass: the PR author's commits
authored strictly before the merge time, excluding the PR's own
constituent commit SHAs. -/
def prPriorCount (allCommits : List Commit) (user : Option String)
    (mergedAt : Int) (prCommits : List String) : Nat :=
  (((author2commits allCommits user).filter
      (fun c => decide (c.authored_at < mergedAt) && !(prCommits.contains c.sha))).map
    Commit.sha).dedup.length

/-- Processing of one newly closed issue in the PR-based pass
(`update.py` lines 183-226). -/
def prPassIssue (issuesDB : List Issue) (allCommits : List Commit)
    (prD : Nat → PRDetail) (reg : List ResolvedRecord) (issue : Issue) :
    List ResolvedRecord :=
  match issue.closed_at with
  | none => reg
  | some t =>
    (candidatePRs issuesDB t).foldl
      (fun reg2 pm =>
        if issue.number ∈ match_issue_numbers (prText pm.1 (prD pm.1.number)) then
          upsert reg2 ⟨issue.number, pm.1.user, Artifact.pr pm.1.number,
            prPriorCount allCommits pm.1.user pm.2 (prD pm.1.number).commits⟩
        else reg2)
      reg

/-- The `all_issues` query: non-pull issues with non-null `closed_at`
at or after the watermark. -/
def newlyClosed (issuesDB : List Issue) (since : Int) : List Issue :=
  issuesDB.filter (fun i =>
    !i.is_pull &&
      (match i.closed_at with
       | some t => decide (since ≤ t)
       | none => false))

/-- `locate_resolved_issues` from `gfibot/data/update.py`: commit pass
first, then the PR pass overwriting entries for the same issue number;
the output is the registry in insertion order. -/
def locate_resolved_issues (issuesDB : List Issue) (commitsDB : List Commit)
    (prD : Nat → PRDetail) (since : Int) : List ResolvedRecord :=
  let all_issues := newlyClosed issuesDB since
  let all_commits := sortByAuthored commitsDB
  let closed_nums := all_issues.map Issue.number
  let reg1 := commitPass closed_nums all_commits
  all_issues.foldl (prPassIssue issuesDB all_commits prD) reg1

/-! ### update_resolved_issues and persistence -/

/-- A `ResolvedIssue` document as persisted into `db.issues`: the
located record plus the fetched event list. -/
structure FullRecord where
  record : ResolvedRecord
  events : List String
deriving DecidableEq

/-- Mongo `replace_one(filter, doc, upsert=True)` keyed by the issue
number (owner and name are constant): replace the first matching
document, else append. -/
def replaceOne : List FullRecord → FullRecord → List FullRecord
  | [], r => [r]
  | x :: xs, r =>
    if x.record.number = r.record.number then r :: xs else x :: replaceOne xs r

/-- One iteration of the persistence loop of `update_resolved_issues`:
a `WriteError` on this record (modelled by the `fails` predicate) is
caught and the write skipped; otherwise the record is upserted. -/
def persistStep (fails : FullRecord → Bool) (db : List FullRecord)
    (r : FullRecord) : List FullRecord :=
  if fails r then db else replaceOne db r

/-- `update_resolved_issues` from `gfibot/data/update.py`: locate the
resolved issues, attach each issue's event list, persist every record
(isolating per-record write failures), and return the located list.
Result: (final `db.issues` state, returned list). -/
def update_resolved_issues (issuesDB : List Issue) (commitsDB : List Commit)
    (prD : Nat → PRDetail) (since : Int) (getEvents : Nat → List String)
    (dbIssues : List FullRecord) (fails : FullRecord → Bool) :
    List FullRecord × List FullRecord :=
  let rs := (locate_resolved_issues issuesDB commitsDB prD since).map
    (fun r => FullRecord.mk r (getEvents r.number))
  (rs.foldl (persistStep fails) dbIssues, rs)

/-! ### Registry lemmas -/

/-- The last element of a list satisfying `p` (the one whose write
survives a left-to-right sequence of overwrites). -/
def lastMatching {α : Type} (p : α → Bool) (l : List α) : Option α :=
  l.reverse.find? p

theorem lastMatching_nil {α : Type} (p : α → Bool) : lastMatching p [] = none := rfl

theorem lastMatching_cons {α : Type} (p : α → Bool) (x : α) (xs : List α) :
    lastMatching p (x :: xs) =
      (lastMatching p xs).or (if p x then some x else none) := by
  unfold lastMatching
  rw [List.reverse_cons, List.find?_append]
  cases hp : p x
  · simp [List.find?, hp]
  · simp [List.find?, hp]

theorem lastMatching_mem {α : Type} {p : α → Bool} {l : List α} {y : α}
    (h : lastMatching p l = some y) : y ∈ l ∧ p y = true := by
  unfold lastMatching at h
  exact ⟨List.mem_reverse.mp (List.mem_of_find?_eq_some h), List.find?_some h⟩

theorem lastMatching_isSome {α : Type} {p : α → Bool} {l : List α} {x : α}
    (hx : x ∈ l) (hp : p x = true) : (lastMatching p l).isSome = true := by
  unfold lastMatching
  rw [List.find?_isSome]
  exact ⟨x, List.mem_reverse.mpr hx, hp⟩

theorem lastMatching_eq_none {α : Type} {p : α → Bool} {l : List α}
    (h : ∀ x ∈ l, p x = false) : lastMatching p l = none := by
  unfold lastMatching
  rw [List.find?_eq_none]
  intro x hx
  simp [h x (List.mem_reverse.mp hx)]

theorem lastMatching_eq_unique {α : Type} {p : α → Bool} {l : List α} {x : α}
    (hx : x ∈ l) (hp : p x = true) (huniq : ∀ y ∈ l, p y = true → y = x) :
    lastMatching p l = some x := by
  unfold lastMatching
  rcases h : l.reverse.find? p with _ | y
  · rw [List.find?_eq_none] at h
    exact absurd hp (h x (List.mem_reverse.mpr hx))
  · have hy := List.find?_some h
    have hmem := List.mem_reverse.mp (List.mem_of_find?_eq_some h)
    rw [huniq y hmem hy]

theorem find?_map_upsert (reg : List ResolvedRecord) (r : ResolvedRecord)
    (h : reg.any (fun x => x.number == r.number) = true) :
    List.find? (fun x => x.number == r.number)
      (reg.map (fun x => if x.number == r.number then r else x)) = some r := by
  induction reg with
  | nil => simp at h
  | cons x xs ih =>
    simp only [List.map_cons, List.find?]
    cases hx : (x.number == r.number)
    · simp only [hx, Bool.false_eq_true, if_false]
      exact ih (by simpa [hx] using h)
    · simp only [hx, eq_self_iff_true, if_true, beq_self_eq_true]

theorem find?_map_upsert_other (reg : List ResolvedRecord) (r : ResolvedRecord)
    (n : Nat) (h : n ≠ r.number) :
    List.find? (fun x => x.number == n)
      (reg.map (fun x => if x.number == r.number then r else x)) =
      List.find? (fun x => x.number == n) reg := by
  induction reg with
  | nil => rfl
  | cons x xs ih =>
    simp only [List.map_cons, List.find?]
    cases hx : (x.number == r.number)
    · cases hxn : (x.number == n)
      · simp only [hx, hxn, Bool.false_eq_true, if_false]
        exact ih
      · simp only [hx, hxn, Bool.false_eq_true, if_false]
    · have hxr : x.number = r.number := by simpa using hx
      have hrn : (r.number == n) = false := by
        simp only [beq_eq_false_iff_ne]
        exact fun hh => h hh.symm
      have hxn : (x.number == n) = false := by rw [hxr]; exact hrn
      simp only [hx, eq_self_iff_true, if_true, hrn, hxn, Bool.false_eq_true, if_false]
      exact ih

theorem regFind_upsert_self (reg : List ResolvedRecord) (r : ResolvedRecord) :
    regFind (upsert reg r) r.number = some r := by
  unfold upsert regFind
  by_cases h : reg.any (fun x => x.number == r.number) = true
  · rw [if_pos h]
    exact find?_map_upsert reg r h
  · rw [if_neg h, List.find?_append]
    have hnone : List.find? (fun x => x.number == r.number) reg = none := by
      rw [List.find?_eq_none]
      intro x hx hpx
      exact h (List.any_eq_true.mpr ⟨x, hx, hpx⟩)
    rw [hnone]
    simp [List.find?]

theorem regFind_upsert_other (reg : List ResolvedRecord) (r : ResolvedRecord)
    (n : Nat) (h : n ≠ r.number) :
    regFind (upsert reg r) n = regFind reg n := by
  unfold upsert regFind
  by_cases hany : reg.any (fun x => x.number == r.number) = true
  · rw [if_pos hany]
    exact find?_map_upsert_other reg r n h
  · rw [if_neg hany, List.find?_append]
    have : List.find? (fun x => x.number == n) [r] = none := by
      rw [List.find?_eq_none]
      intro x hx
      rw [List.mem_singleton] at hx
      subst hx
      simp only [beq_eq_false_iff_ne, ne_eq, Bool.not_eq_true]
      exact fun hh => h hh.symm
    rw [this, Option.or_none]

/-- A conditional overwrite of key `(f x).number`, seen through `regFind`. -/
theorem regFind_ite_upsert {α : Type} (P : α → Prop) [DecidablePred P]
    (f : α → ResolvedRecord) (n : Nat) (reg : List ResolvedRecord) (x : α) :
    regFind (if P x then upsert reg (f x) else reg) n =
      ((if decide (P x) && ((f x).number == n) then some (f x) else none).or
        (regFind reg n)) := by
  by_cases h : P x
  · rw [if_pos h]
    by_cases hn : (f x).number = n
    · rw [← hn, regFind_upsert_self]
      simp [h]
    · rw [regFind_upsert_other reg (f x) n (fun hh => hn hh.symm)]
      have : ((f x).number == n) = false := by
        simp only [beq_eq_false_iff_ne]
        exact hn
      simp [this]
  · rw [if_neg h]
    simp [h]

/-- Fold lemma: a left fold of steps, each of which either overwrites
key `n` with a determined record `o x` or leaves the registry alone,
results (at key `n`) in the write of the last step that wrote. -/
theorem regFind_foldl_of_step {α : Type} {step : List ResolvedRecord → α → List ResolvedRecord}
    {o : α → Option ResolvedRecord} {n : Nat}
    (hstep : ∀ reg x, regFind (step reg x) n = (o x).or (regFind reg n)) :
    ∀ (xs : List α) (reg : List ResolvedRecord),
      regFind (xs.foldl step reg) n =
        (((lastMatching (fun x => (o x).isSome) xs).bind o).or (regFind reg n)) := by
  intro xs
  induction xs with
  | nil => intro reg; simp [lastMatching_nil]
  | cons x xs ih =>
    intro reg
    rw [List.foldl_cons, ih (step reg x), hstep reg x, lastMatching_cons]
    rcases h : lastMatching (fun x => (o x).isSome) xs with _ | y
    · simp only [Option.none_or, Option.none_bind]
      cases hx : (o x).isSome
      · have : o x = none := Option.not_isSome_iff_eq_none.mp (by simp [hx])
        simp [hx, this]
      · rcases Option.isSome_iff_exists.mp hx with ⟨r, hr⟩
        simp [hx, hr]
    · have hy := (lastMatching_mem h).2
      rcases Option.isSome_iff_exists.mp hy with ⟨r, hr⟩
      simp [hr]

/-! ### Characterization of the two passes -/

theorem isSome_if_some {β : Type} (b : Bool) (v : β) :
    (if b then some v else none).isSome = b := by
  cases b <;> simp

theorem isSome_if_opt {β : Type} (b : Bool) (o : Option β) :
    (if b then o else none).isSome = (b && o.isSome) := by
  cases b <;> simp

/-- Whether commit `c` writes the registry entry of issue `n` in the
commit-based pass. -/
def commitMatches (closedNums : List Nat) (n : Nat) (c : Commit) : Bool :=
  c.author.isSome && decide (n ∈ match_issue_numbers c.message) &&
    decide (n ∈ closedNums)

/-- The registry record written by commit `c` for issue `n`. -/
def commitRecordOf (allCommits : List Commit) (n : Nat) (c : Commit) :
    ResolvedRecord :=
  ⟨n, c.author, Artifact.commit c.sha,
    commitsBeforeCount allCommits c.author c.authored_at⟩

theorem regFind_commitPassStep (closedNums : List Nat) (allCommits : List Commit)
    (reg : List ResolvedRecord) (c : Commit) (n : Nat) :
    regFind (commitPassStep closedNums allCommits reg c) n =
      ((if commitMatches closedNums n c then some (commitRecordOf allCommits n c)
        else none).or (regFind reg n)) := by
  unfold commitPassStep
  cases hauth : c.author with
  | none => simp [commitMatches, hauth]
  | some a =>
    simp only []
    have hfold := regFind_foldl_of_step
      (fun reg2 num => regFind_ite_upsert (fun m => m ∈ closedNums)
        (fun m => (⟨m, some a, Artifact.commit c.sha,
          commitsBeforeCount allCommits (some a) c.authored_at⟩ : ResolvedRecord))
        n reg2 num)
      (match_issue_numbers c.message) reg
    simp only [] at hfold
    rw [hfold]
    congr 1
    have hq : (fun m : Nat =>
        (if decide (m ∈ closedNums) && (m == n)
          then some (⟨m, some a, Artifact.commit c.sha,
            commitsBeforeCount allCommits (some a) c.authored_at⟩ : ResolvedRecord)
          else none).isSome) =
        (fun m : Nat => decide (m ∈ closedNums) && (m == n)) := by
      funext m
      rw [isSome_if_some]
    rw [hq]
    rcases hl : lastMatching (fun m : Nat => decide (m ∈ closedNums) && (m == n))
        (match_issue_numbers c.message) with _ | m
    · simp only [Option.none_bind]
      by_cases hm : n ∈ match_issue_numbers c.message
      · by_cases hc : n ∈ closedNums
        · exfalso
          have hpred : (fun m : Nat => decide (m ∈ closedNums) && (m == n)) n
              = true := by
            simp [hc]
          have hsome := @lastMatching_isSome Nat
            (fun m : Nat => decide (m ∈ closedNums) && (m == n))
            (match_issue_numbers c.message) n hm hpred
          rw [hl] at hsome
          simp at hsome
        · have hcm : commitMatches closedNums n c = false := by
            simp [commitMatches, hc]
          rw [if_neg (show ¬(commitMatches closedNums n c = true) by simp [hcm])]
      · have hcm : commitMatches closedNums n c = false := by
          simp [commitMatches, hm]
        rw [if_neg (show ¬(commitMatches closedNums n c = true) by simp [hcm])]
    · have hmem := lastMatching_mem hl
      have hpred := hmem.2
      rw [Bool.and_eq_true] at hpred
      have hc : m ∈ closedNums := of_decide_eq_true hpred.1
      have hmn : m = n := by simpa using hpred.2
      subst hmn
      have hcm : commitMatches closedNums m c = true := by
        simp [commitMatches, hauth, hmem.1, hc]
      rw [if_pos hcm]
      simp only [Option.some_bind]
      rw [if_pos (show (decide (m ∈ closedNums) && (m == m)) = true by simp [hc])]
      simp [commitRecordOf, hauth]

/-- Whether candidate PR `pm` is accepted as the resolver of issue `i`
(its text mentions the issue number through a closing keyword). -/
def acceptedPred (prD : Nat → PRDetail) (i : Issue) (pm : Issue × Int) : Bool :=
  decide (i.number ∈ match_issue_numbers (prText pm.1 (prD pm.1.number)))

/-- The registry record written for issue `i` by accepted PR `pm`. -/
def prRecordOf (allCommits : List Commit) (prD : Nat → PRDetail) (i : Issue)
    (pm : Issue × Int) : ResolvedRecord :=
  ⟨i.number, pm.1.user, Artifact.pr pm.1.number,
    prPriorCount allCommits pm.1.user pm.2 (prD pm.1.number).commits⟩

/-- The last accepted candidate PR for issue `i` (the one whose write
survives), if any. -/
def lastAcceptedPR (issuesDB : List Issue) (prD : Nat → PRDetail) (i : Issue) :
    Option (Issue × Int) :=
  match i.closed_at with
  | none => none
  | some t => lastMatching (acceptedPred prD i) (candidatePRs issuesDB t)

/-- The record the PR-based pass produces for issue `i`, if any. -/
def issueResolution (issuesDB : List Issue) (allCommits : List Commit)
    (prD : Nat → PRDetail) (i : Issue) : Option ResolvedRecord :=
  (lastAcceptedPR issuesDB prD i).map (prRecordOf allCommits prD i)

theorem regFind_prPassIssue (issuesDB : List Issue) (allCommits : List Commit)
    (prD : Nat → PRDetail) (reg : List ResolvedRecord) (i : Issue) (n : Nat) :
    regFind (prPassIssue issuesDB allCommits prD reg i) n =
      ((if i.number == n then issueResolution issuesDB allCommits prD i
        else none).or (regFind reg n)) := by
  unfold prPassIssue
  cases hclosed : i.closed_at with
  | none =>
    simp [issueResolution, lastAcceptedPR, hclosed]
  | some t =>
    simp only []
    have hfold := regFind_foldl_of_step
      (fun reg2 pm => regFind_ite_upsert
        (fun q : Issue × Int =>
          i.number ∈ match_issue_numbers (prText q.1 (prD q.1.number)))
        (fun q : Issue × Int => (⟨i.number, q.1.user, Artifact.pr q.1.number,
          prPriorCount allCommits q.1.user q.2 (prD q.1.number).commits⟩ :
            ResolvedRecord))
        n reg2 pm)
      (candidatePRs issuesDB t) reg
    simp only [] at hfold
    rw [hfold]
    congr 1
    have hpred : (fun pm : Issue × Int =>
        (if decide (i.number ∈ match_issue_numbers (prText pm.1 (prD pm.1.number))) &&
            (i.number == n)
          then some (⟨i.number, pm.1.user, Artifact.pr pm.1.number,
            prPriorCount allCommits pm.1.user pm.2 (prD pm.1.number).commits⟩ :
              ResolvedRecord)
          else none).isSome) =
        (fun pm : Issue × Int => acceptedPred prD i pm && (i.number == n)) := by
      funext pm
      rw [isSome_if_some]
      rfl
    rw [hpred]
    by_cases hn : (i.number == n) = true
    · have heq : (fun pm : Issue × Int => acceptedPred prD i pm && (i.number == n)) =
          acceptedPred prD i := by
        funext pm
        rw [hn, Bool.and_true]
      rw [heq, if_pos hn]
      unfold issueResolution lastAcceptedPR
      rw [hclosed]
      simp only []
      rcases hl : lastMatching (acceptedPred prD i) (candidatePRs issuesDB t)
          with _ | pm
      · rfl
      · have hacc := (lastMatching_mem hl).2
        have hmem2 : i.number ∈ match_issue_numbers (prText pm.1 (prD pm.1.number)) := by
          unfold acceptedPred at hacc
          exact of_decide_eq_true hacc
        simp only [Option.some_bind, Option.map_some']
        rw [if_pos (show (decide
            (i.number ∈ match_issue_numbers (prText pm.1 (prD pm.1.number))) &&
            (i.number == n)) = true by rw [hn]; simp [hmem2])]
        rfl
    · have hn2 : (i.number == n) = false := by simpa using hn
      rw [lastMatching_eq_none (fun pm _ => by rw [hn2, Bool.and_false]), if_neg hn]
      rfl

theorem bind_congr_of_pred {α β : Type} (p : α → Bool) (l : List α)
    (f g : α → Option β) (h : ∀ x ∈ l, p x = true → f x = g x) :
    (lastMatching p l).bind f = (lastMatching p l).bind g := by
  rcases hl : lastMatching p l with _ | x
  · rfl
  · have hm := lastMatching_mem hl
    simp only [Option.some_bind]
    exact h x hm.1 hm.2

theorem bind_eq_map_of_pred {α β : Type} (p : α → Bool) (l : List α)
    (f : α → Option β) (g : α → β) (h : ∀ x ∈ l, p x = true → f x = some (g x)) :
    (lastMatching p l).bind f = (lastMatching p l).map g := by
  rcases hl : lastMatching p l with _ | x
  · rfl
  · have hm := lastMatching_mem hl
    simp only [Option.some_bind, Option.map_some']
    exact h x hm.1 hm.2

/-- Master characterization of `locate_resolved_issues` at issue number
`n`: the PR-based pass result of the last newly-closed issue numbered
`n` with an accepted PR wins; otherwise the last matching commit wins;
otherwise there is no entry. -/
theorem regFind_locate (issuesDB : List Issue) (commitsDB : List Commit)
    (prD : Nat → PRDetail) (since : Int) (n : Nat) :
    regFind (locate_resolved_issues issuesDB commitsDB prD since) n =
      (((lastMatching
          (fun i => (i.number == n) &&
            (issueResolution issuesDB (sortByAuthored commitsDB) prD i).isSome)
          (newlyClosed issuesDB since)).bind
        (fun i => issueResolution issuesDB (sortByAuthored commitsDB) prD i)).or
      ((lastMatching
          (commitMatches ((newlyClosed issuesDB since).map Issue.number) n)
          (sortByAuthored commitsDB)).map
        (fun c => commitRecordOf (sortByAuthored commitsDB) n c))) := by
  unfold locate_resolved_issues
  simp only []
  have hfold := regFind_foldl_of_step
    (fun reg2 i => regFind_prPassIssue issuesDB (sortByAuthored commitsDB) prD reg2 i n)
    (newlyClosed issuesDB since)
    (commitPass ((newlyClosed issuesDB since).map Issue.number) (sortByAuthored commitsDB))
  simp only [] at hfold
  rw [hfold]
  have hreg1 := regFind_foldl_of_step
    (fun reg2 c => regFind_commitPassStep
      ((newlyClosed issuesDB since).map Issue.number) (sortByAuthored commitsDB) reg2 c n)
    (sortByAuthored commitsDB) []
  simp only [] at hreg1
  unfold commitPass
  rw [hreg1]
  have hpred1 : (fun i =>
      (if i.number == n then issueResolution issuesDB (sortByAuthored commitsDB) prD i
        else none).isSome) =
      (fun i => (i.number == n) &&
        (issueResolution issuesDB (sortByAuthored commitsDB) prD i).isSome) := by
    funext i
    rw [isSome_if_opt]
  have hpred2 : (fun c =>
      (if commitMatches ((newlyClosed issuesDB since).map Issue.number) n c
        then some (commitRecordOf (sortByAuthored commitsDB) n c) else none).isSome) =
      commitMatches ((newlyClosed issuesDB since).map Issue.number) n := by
    funext c
    rw [isSome_if_some]
  rw [hpred1, hpred2]
  have hbase : regFind [] n = none := rfl
  rw [hbase, Option.or_none]
  congr 1
  · refine bind_congr_of_pred _ _ _ _ (fun i _ hp => ?_)
    rw [Bool.and_eq_true] at hp
    rw [if_pos hp.1]
  · refine bind_eq_map_of_pred _ _ _ _ (fun c _ hp => ?_)
    rw [if_pos hp]

/-! ### Whole-output invariants -/

theorem mem_upsert {reg : List ResolvedRecord} {r x : ResolvedRecord}
    (h : x ∈ upsert reg r) : x ∈ reg ∨ x = r := by
  unfold upsert at h
  split at h
  · rcases List.mem_map.mp h with ⟨y, hy, hxy⟩
    by_cases hcond : (y.number == r.number) = true
    · right
      rw [if_pos hcond] at hxy
      exact hxy.symm
    · left
      rw [if_neg hcond] at hxy
      rw [← hxy]
      exact hy
  · rcases List.mem_append.mp h with h | h
    · left; exact h
    · right; simpa using h

theorem foldl_preserves_mem {α : Type} (Inv : List ResolvedRecord → Prop)
    {step : List ResolvedRecord → α → List ResolvedRecord} :
    ∀ (xs : List α), (∀ reg x, x ∈ xs → Inv reg → Inv (step reg x)) →
      ∀ reg, Inv reg → Inv (xs.foldl step reg) := by
  intro xs
  induction xs with
  | nil => intro _ reg hreg; exact hreg
  | cons x xs ih =>
    intro h reg hreg
    exact ih (fun reg2 y hy => h reg2 y (List.mem_cons_of_mem x hy)) _
      (h reg x (List.mem_cons_self x xs) hreg)

theorem upsert_nodup {reg : List ResolvedRecord} {r : ResolvedRecord}
    (h : (reg.map ResolvedRecord.number).Nodup) :
    ((upsert reg r).map ResolvedRecord.number).Nodup := by
  unfold upsert
  split
  · have heq : (reg.map (fun x => if x.number == r.number then r else x)).map
        ResolvedRecord.number = reg.map ResolvedRecord.number := by
      rw [List.map_map]
      apply List.map_congr_left
      intro x hx
      by_cases hc : (x.number == r.number) = true
      · have hxr : x.number = r.number := by simpa using hc
        simp only [Function.comp_apply]
        rw [if_pos hc]
        exact hxr.symm
      · simp only [Function.comp_apply]
        rw [if_neg hc]
    rw [heq]
    exact h
  · rename_i hany
    rw [List.map_append]
    rw [List.nodup_append]
    refine ⟨h, List.nodup_singleton _, ?_⟩
    intro a ha hb
    rw [List.map_cons, List.map_nil, List.mem_singleton] at hb
    subst hb
    rcases List.mem_map.mp ha with ⟨x, hx, hxa⟩
    exact hany (List.any_eq_true.mpr ⟨x, hx, by simp [hxa]⟩)

theorem commitPassStep_pres (closedNums : List Nat) (allCommits : List Commit)
    (Inv : List ResolvedRecord → Prop)
    (hup : ∀ reg r, Inv reg → r.resolver.isSome = true → r.number ∈ closedNums →
      Inv (upsert reg r))
    (reg : List ResolvedRecord) (c : Commit) (h : Inv reg) :
    Inv (commitPassStep closedNums allCommits reg c) := by
  unfold commitPassStep
  cases c.author with
  | none => exact h
  | some a =>
    simp only []
    refine foldl_preserves_mem Inv _ (fun reg2 m _ hInv => ?_) reg h
    by_cases hm : m ∈ closedNums
    · rw [if_pos hm]
      exact hup reg2 _ hInv rfl hm
    · rw [if_neg hm]
      exact hInv

theorem prPassIssue_pres (issuesDB : List Issue) (allCommits : List Commit)
    (prD : Nat → PRDetail) (S : List Nat) (Inv : List ResolvedRecord → Prop)
    (hup : ∀ reg r, Inv reg → r.number ∈ S → Inv (upsert reg r))
    (reg : List ResolvedRecord) (i : Issue) (hi : i.number ∈ S) (h : Inv reg) :
    Inv (prPassIssue issuesDB allCommits prD reg i) := by
  unfold prPassIssue
  cases i.closed_at with
  | none => exact h
  | some t =>
    simp only []
    refine foldl_preserves_mem Inv _ (fun reg2 pm _ hInv => ?_) reg h
    by_cases hm : i.number ∈ match_issue_numbers (prText pm.1 (prD pm.1.number))
    · rw [if_pos hm]
      exact hup reg2 _ hInv hi
    · rw [if_neg hm]
      exact hInv

/-- Every record located for a repository belongs to an issue that is
newly closed (non-pull, closed at or after the watermark). -/
theorem locate_numbers (issuesDB : List Issue) (commitsDB : List Commit)
    (prD : Nat → PRDetail) (since : Int) :
    ∀ r ∈ locate_resolved_issues issuesDB commitsDB prD since,
      r.number ∈ (newlyClosed issuesDB since).map Issue.number := by
  unfold locate_resolved_issues
  simp only []
  refine foldl_preserves_mem
    (fun reg => ∀ r ∈ reg, r.number ∈ (newlyClosed issuesDB since).map Issue.number)
    _ (fun reg i hi hInv => ?_) _ ?_
  · refine prPassIssue_pres issuesDB (sortByAuthored commitsDB) prD
      ((newlyClosed issuesDB since).map Issue.number)
      (fun reg => ∀ r ∈ reg, r.number ∈ (newlyClosed issuesDB since).map Issue.number)
      (fun reg2 r hreg2 hr => ?_) reg i
      (List.mem_map_of_mem Issue.number hi) hInv
    intro x hx
    rcases mem_upsert hx with h | h
    · exact hreg2 x h
    · rw [h]; exact hr
  · unfold commitPass
    refine foldl_preserves_mem
      (fun reg => ∀ r ∈ reg, r.number ∈ (newlyClosed issuesDB since).map Issue.number)
      _ (fun reg c _ hInv => ?_) [] (by intro r hr; simp at hr)
    refine commitPassStep_pres ((newlyClosed issuesDB since).map Issue.number)
      (sortByAuthored commitsDB)
      (fun reg => ∀ r ∈ reg, r.number ∈ (newlyClosed issuesDB since).map Issue.number)
      (fun reg2 r hreg2 _ hr => ?_) reg c hInv
    intro x hx
    rcases mem_upsert hx with h | h
    · exact hreg2 x h
    · rw [h]; exact hr

/-- The located records carry pairwise distinct issue numbers. -/
theorem locate_nodup (issuesDB : List Issue) (commitsDB : List Commit)
    (prD : Nat → PRDetail) (since : Int) :
    ((locate_resolved_issues issuesDB commitsDB prD since).map
      ResolvedRecord.number).Nodup := by
  unfold locate_resolved_issues
  simp only []
  refine foldl_preserves_mem
    (fun reg => (reg.map ResolvedRecord.number).Nodup)
    _ (fun reg i hi hInv => ?_) _ ?_
  · exact prPassIssue_pres issuesDB (sortByAuthored commitsDB) prD
      ((newlyClosed issuesDB since).map Issue.number)
      (fun reg => (reg.map ResolvedRecord.number).Nodup)
      (fun reg2 r hreg2 _ => upsert_nodup hreg2) reg i
      (List.mem_map_of_mem Issue.number hi) hInv
  · unfold commitPass
    refine foldl_preserves_mem
      (fun reg => (reg.map ResolvedRecord.number).Nodup)
      _ (fun reg c _ hInv => ?_) [] (by simp)
    exact commitPassStep_pres ((newlyClosed issuesDB since).map Issue.number)
      (sortByAuthored commitsDB)
      (fun reg => (reg.map ResolvedRecord.number).Nodup)
      (fun reg2 r hreg2 _ _ => upsert_nodup hreg2) reg c hInv

/-- The commit-based pass never records a null resolver: commits with a
null author are skipped outright. -/
theorem commitPass_resolver_isSome (closedNums : List Nat) (allCommits : List Commit) :
    ∀ r ∈ commitPass closedNums allCommits, r.resolver.isSome = true := by
  unfold commitPass
  refine foldl_preserves_mem
    (fun reg => ∀ r ∈ reg, r.resolver.isSome = true)
    _ (fun reg c _ hInv => ?_) [] (by intro r hr; simp at hr)
  refine commitPassStep_pres closedNums allCommits
    (fun reg => ∀ r ∈ reg, r.resolver.isSome = true)
    (fun reg2 r hreg2 hr _ => ?_) reg c hInv
  intro x hx
  rcases mem_upsert hx with h | h
  · exact hreg2 x h
  · rw [h]; exact hr

/-! ### Input-side characterizations -/

instance : IsTotal Commit commitLE :=
  ⟨fun a b => Int.le_total a.authored_at b.authored_at⟩

instance : IsTrans Commit commitLE :=
  ⟨fun _ _ _ hab hbc => le_trans hab hbc⟩

theorem sortByAuthored_perm (cs : List Commit) : (sortByAuthored cs).Perm cs :=
  List.perm_insertionSort commitLE cs

theorem sortByAuthored_sorted (cs : List Commit) :
    List.Sorted commitLE (sortByAuthored cs) :=
  List.sorted_insertionSort commitLE cs

theorem mem_newlyClosed {issuesDB : List Issue} {since : Int} {i : Issue} :
    i ∈ newlyClosed issuesDB since ↔
      i ∈ issuesDB ∧ i.is_pull = false ∧ ∃ t, i.closed_at = some t ∧ since ≤ t := by
  unfold newlyClosed
  rw [List.mem_filter]
  constructor
  · rintro ⟨hmem, hpred⟩
    rw [Bool.and_eq_true] at hpred
    refine ⟨hmem, by simpa using hpred.1, ?_⟩
    rcases hc : i.closed_at with _ | t
    · rw [hc] at hpred
      simp at hpred
    · rw [hc] at hpred
      exact ⟨t, rfl, of_decide_eq_true hpred.2⟩
  · rintro ⟨hmem, hpull, t, hc, ht⟩
    refine ⟨hmem, ?_⟩
    rw [Bool.and_eq_true]
    refine ⟨by simp [hpull], ?_⟩
    rw [hc]
    simpa using ht

theorem mem_candidatePRs (issuesDB : List Issue) (t : Int) (pr : Issue) (m : Int) :
    (pr, m) ∈ candidatePRs issuesDB t ↔
      pr ∈ issuesDB ∧ pr.is_pull = true ∧ pr.merged_at = some m ∧
        t - 60 < m ∧ m < t + 60 := by
  unfold candidatePRs
  rw [List.mem_filterMap]
  constructor
  · rintro ⟨p, hp, hpm⟩
    rcases hm : p.merged_at with _ | m2
    · rw [hm] at hpm
      simp at hpm
    · rw [hm] at hpm
      simp only [] at hpm
      split at hpm
      · rename_i hcond
        rw [Option.some.injEq, Prod.mk.injEq] at hpm
        rcases hpm with ⟨hp1, hp2⟩
        subst hp1
        subst hp2
        exact ⟨hp, hcond.1, hm, hcond.2.1, hcond.2.2⟩
      · simp at hpm
  · rintro ⟨hmem, hpull, hmerged, h1, h2⟩
    refine ⟨pr, hmem, ?_⟩
    rw [hmerged]
    simp only []
    rw [if_pos ⟨hpull, h1, h2⟩]

theorem mem_regFind_isSome {reg : List ResolvedRecord} {r : ResolvedRecord}
    (h : r ∈ reg) : (regFind reg r.number).isSome = true := by
  unfold regFind
  rw [List.find?_isSome]
  exact ⟨r, h, by simp⟩

/-- Characterization of the commit-based pass on its own: the entry for
issue `n` comes from the last commit (in processing order) whose
message claims `n`, has a non-null author, and `n` newly closed. -/
theorem regFind_commitPass (closedNums : List Nat) (allCommits : List Commit)
    (n : Nat) :
    regFind (commitPass closedNums allCommits) n =
      (lastMatching (commitMatches closedNums n) allCommits).map
        (commitRecordOf allCommits n) := by
  unfold commitPass
  have hreg1 := regFind_foldl_of_step
    (fun reg2 c => regFind_commitPassStep closedNums allCommits reg2 c n)
    allCommits []
  simp only [] at hreg1
  rw [hreg1]
  have hpred2 : (fun c => (if commitMatches closedNums n c
      then some (commitRecordOf allCommits n c) else none).isSome) =
      commitMatches closedNums n := by
    funext c
    rw [isSome_if_some]
  rw [hpred2]
  have hbase : regFind [] n = none := rfl
  rw [hbase, Option.or_none]
  refine bind_eq_map_of_pred _ _ _ _ (fun c _ hp => ?_)
  rw [if_pos hp]

/-- In a list sorted ascending by authored time, a matching element that
is strictly later than every other matching element is the last match. -/
theorem lastMatching_sorted_strict {p : Commit → Bool} {l : List Commit} {c : Commit}
    (hsorted : List.Sorted commitLE l) (hc : c ∈ l) (hp : p c = true)
    (hlatest : ∀ c2 ∈ l, p c2 = true → c2 = c ∨ c2.authored_at < c.authored_at) :
    lastMatching p l = some c := by
  induction l with
  | nil => simp at hc
  | cons x xs ih =>
    rw [lastMatching_cons]
    by_cases hcx : c ∈ xs
    · rw [ih hsorted.of_cons hcx
        (fun c2 h2 hp2 => hlatest c2 (List.mem_cons_of_mem _ h2) hp2)]
      rfl
    · have hxc : x = c := by
        rcases List.mem_cons.mp hc with h | h
        · exact h.symm
        · exact absurd h hcx
      subst hxc
      have hnone : lastMatching p xs = none := by
        rcases hl : lastMatching p xs with _ | y
        · rfl
        · have hm := lastMatching_mem hl
          rcases hlatest y (List.mem_cons_of_mem _ hm.1) hm.2 with h | h
          · subst h
            exact absurd hm.1 hcx
          · have hxy : commitLE x y := (List.sorted_cons.mp hsorted).1 y hm.1
            unfold commitLE at hxy
            omega
      rw [hnone, hp]
      rfl

/-! ### Claim C5 -/

def c5pr61 : Issue := ⟨9, some "u", true, none, some 61, none, none⟩
def c5pr59 : Issue := ⟨9, some "u", true, none, some 59, none, none⟩
def c5pr60 : Issue := ⟨9, some "u", true, none, some 60, none, none⟩

/-- Claim C5: for a newly closed issue with closure time `t`, the
PR-based matcher's candidates are exactly the pull requests of the
repository whose merge time lies in the open interval
`(t - 60, t + 60)` seconds; a PR merged 61 seconds after closure is
excluded, 59 seconds is included, and the endpoint 60 seconds exactly
is excluded. -/
theorem C5_time_window :
    (∀ (issuesDB : List Issue) (t : Int) (pr : Issue) (m : Int),
      (pr, m) ∈ candidatePRs issuesDB t ↔
        pr ∈ issuesDB ∧ pr.is_pull = true ∧ pr.merged_at = some m ∧
          t - 60 < m ∧ m < t + 60) ∧
    candidatePRs [c5pr61] 0 = [] ∧
    candidatePRs [c5pr59] 0 = [(c5pr59, 59)] ∧
    candidatePRs [c5pr60] 0 = [] :=
  ⟨mem_candidatePRs, by decide, by decide, by decide⟩

/-! ### Claim C7 -/

/-- Claim C7: a newly closed issue for which no commit message and no
time-window PR text yields a closing-keyword match on its number gets
no entry at all in the output of `locate_resolved_issues`. -/
theorem C7_no_evidence_no_record (issuesDB : List Issue) (commitsDB : List Commit)
    (prD : Nat → PRDetail) (since : Int) (n : Nat)
    (hcommit : ∀ c ∈ commitsDB, n ∉ match_issue_numbers c.message)
    (hpr : ∀ i ∈ issuesDB, i.number = n → ∀ t, i.closed_at = some t →
      ∀ pm ∈ candidatePRs issuesDB t,
        n ∉ match_issue_numbers (prText pm.1 (prD pm.1.number))) :
    ∀ r ∈ locate_resolved_issues issuesDB commitsDB prD since, r.number ≠ n := by
  intro r hr hrn
  have hs := mem_regFind_isSome hr
  rw [hrn, regFind_locate] at hs
  rw [Option.isSome_or, Bool.or_eq_true] at hs
  rcases hs with hs | hs
  · rcases hl : lastMatching
        (fun i => (i.number == n) &&
          (issueResolution issuesDB (sortByAuthored commitsDB) prD i).isSome)
        (newlyClosed issuesDB since) with _ | i
    · rw [hl] at hs
      simp at hs
    · have hm := lastMatching_mem hl
      have hand := hm.2
      rw [Bool.and_eq_true] at hand
      have hnum : i.number = n := by simpa using hand.1
      have hres := hand.2
      unfold issueResolution at hres
      rcases hla : lastAcceptedPR issuesDB prD i with _ | pm
      · rw [hla] at hres
        simp at hres
      · unfold lastAcceptedPR at hla
        rcases hct : i.closed_at with _ | t
        · rw [hct] at hla
          simp at hla
        · rw [hct] at hla
          simp only [] at hla
          have hma := lastMatching_mem hla
          have hacc := hma.2
          unfold acceptedPred at hacc
          have hmem2 : i.number ∈
              match_issue_numbers (prText pm.1 (prD pm.1.number)) :=
            of_decide_eq_true hacc
          rw [hnum] at hmem2
          have hiDB : i ∈ issuesDB := (mem_newlyClosed.mp hm.1).1
          exact hpr i hiDB hnum t hct pm hma.1 hmem2
  · rcases hl : lastMatching
        (commitMatches ((newlyClosed issuesDB since).map Issue.number) n)
        (sortByAuthored commitsDB) with _ | c
    · rw [hl] at hs
      simp at hs
    · have hm := lastMatching_mem hl
      have hmm := hm.2
      unfold commitMatches at hmm
      rw [Bool.and_eq_true, Bool.and_eq_true] at hmm
      have hmem : n ∈ match_issue_numbers c.message := of_decide_eq_true hmm.1.2
      have hcmem : c ∈ commitsDB := (sortByAuthored_perm commitsDB).subset hm.1
      exact hcommit c hcmem hmem

def c7issue : Issue := ⟨5, some "u", false, some 0, none, none, none⟩
def c7commit : Commit := ⟨"s", some "a", 0, "hello world"⟩
def c7prD : Nat → PRDetail := fun _ => ⟨[], []⟩

theorem C7_witness :
    (∀ c ∈ [c7commit], (5 : Nat) ∉ match_issue_numbers c.message) ∧
    (∀ r ∈ locate_resolved_issues [c7issue] [c7commit] c7prD 0, r.number ≠ 5) := by
  refine ⟨by decide, ?_⟩
  refine C7_no_evidence_no_record [c7issue] [c7commit] c7prD 0 5 (by decide) ?_
  intro i hi hnum t hct pm hpm hmem
  rw [List.mem_singleton] at hi
  subst hi
  have hct2 : some (0 : Int) = some t := hct
  have ht : (0 : Int) = t := by injection hct2
  subst ht
  have hempty : candidatePRs [c7issue] 0 = [] := by decide
  rw [hempty] at hpm
  simp at hpm

/-! ### Claim C4 (corrected) -/

def c4commit : Commit := ⟨"abc", none, 0, "fixes #1"⟩
def c4issue : Issue := ⟨1, some "alice", false, some 0, none, none, none⟩
def c4prD : Nat → PRDetail := fun _ => ⟨[], []⟩

/-- Claim C4 counterexample: a commit with a null author whose message
contains a closing keyword for a newly closed issue produces NO
resolution candidate at all — `locate_resolved_issues` skips
null-author commits (`if c["author"] is None: continue`), so nothing is
stored, contradicting the claimed resolver-null placeholder record. -/
theorem C4_counterexample :
    locate_resolved_issues [c4issue] [c4commit] c4prD 0 = [] ∧
    ¬∃ r ∈ locate_resolved_issues [c4issue] [c4commit] c4prD 0,
      r.number = 1 ∧ r.resolver = none :=
  ⟨by decide, by decide⟩

/-- Claim C4 (amended): a commit with a null author login is skipped
entirely by the commit-based matcher — it yields no candidate, and
consequently every record the commit-based pass produces has a non-null
resolver. -/
theorem C4_amended_null_author_skipped (closedNums : List Nat)
    (allCommits : List Commit) (r : ResolvedRecord)
    (hr : r ∈ commitPass closedNums allCommits) : r.resolver.isSome = true :=
  commitPass_resolver_isSome closedNums allCommits r hr

theorem C4_witness :
    ((⟨1, some "a", Artifact.commit "s", 0⟩ : ResolvedRecord) ∈
      commitPass [1] [⟨"s", some "a", 0, "fixes #1"⟩]) ∧
    (⟨1, some "a", Artifact.commit "s", 0⟩ : ResolvedRecord).resolver.isSome = true :=
  ⟨by decide, C4_amended_null_author_skipped [1] [⟨"s", some "a", 0, "fixes #1"⟩]
    ⟨1, some "a", Artifact.commit "s", 0⟩ (by decide)⟩

/-! ### Claim C8 (corrected) -/

/-- The commit input asserted by the claim (and spec §4.2): only the
commits of the current incremental window, i.e. authored at or after
the watermark.  The code instead queries all stored commits with no
`since` filter (update.py line 136). -/
def commitsSince (commitsDB : List Commit) (since : Int) : List Commit :=
  commitsDB.filter (fun c => decide (since ≤ c.authored_at))

def c8issue : Issue := ⟨1, some "u", false, some 150, none, none, none⟩
def c8commit : Commit := ⟨"s", some "a", 0, "fixes #1"⟩
def c8prD : Nat → PRDetail := fun _ => ⟨[], []⟩

/-- Claim C8 counterexample: restricting the commit input to the
current window changes the result.  With the watermark at 100, a commit
authored at 0 whose message closes issue 1 (closed at 150) still
produces a resolution record, because the commit query has no `since`
filter; under the claimed window restriction it would produce none. -/
theorem C8_counterexample :
    locate_resolved_issues [c8issue] [c8commit] c8prD 100 ≠
      locate_resolved_issues [c8issue] (commitsSince [c8commit] 100) c8prD 100 := by
  decide

/-- Claim C8 (amended): the issue side IS restricted to the incremental
window — every record belongs to a non-pull issue closed at or after
the watermark — but the commit side is the full stored commit history,
processed as a sorted (ascending by authored time) permutation of all
stored commits, not just those of the current window. -/
theorem C8_amended_inputs (issuesDB : List Issue) (commitsDB : List Commit)
    (prD : Nat → PRDetail) (since : Int) :
    (∀ r ∈ locate_resolved_issues issuesDB commitsDB prD since,
      r.number ∈ (newlyClosed issuesDB since).map Issue.number) ∧
    (sortByAuthored commitsDB).Perm commitsDB ∧
    List.Sorted commitLE (sortByAuthored commitsDB) :=
  ⟨locate_numbers issuesDB commitsDB prD since,
   sortByAuthored_perm commitsDB, sortByAuthored_sorted commitsDB⟩

/-! ### Shared helpers for C1, C2, C3 -/

/-- If issue `i` is newly closed, issue numbers are unique, and `pm` is
the last accepted candidate PR for `i`, then the final registry entry
for `i.number` is the record written by `pm` (the PR pass overwrites
whatever the commit pass wrote). -/
theorem regFind_locate_of_lastAccepted (issuesDB : List Issue)
    (commitsDB : List Commit) (prD : Nat → PRDetail) (since : Int)
    (i : Issue) (pm : Issue × Int)
    (hnodup : (issuesDB.map Issue.number).Nodup)
    (hi : i ∈ newlyClosed issuesDB since)
    (hlast : lastAcceptedPR issuesDB prD i = some pm) :
    regFind (locate_resolved_issues issuesDB commitsDB prD since) i.number =
      some (prRecordOf (sortByAuthored commitsDB) prD i pm) := by
  rw [regFind_locate]
  have hres : issueResolution issuesDB (sortByAuthored commitsDB) prD i =
      some (prRecordOf (sortByAuthored commitsDB) prD i pm) := by
    unfold issueResolution
    rw [hlast]
    rfl
  have hnodup2 : ((newlyClosed issuesDB since).map Issue.number).Nodup :=
    List.Nodup.sublist ((List.filter_sublist _).map Issue.number) hnodup
  have hlm : lastMatching
      (fun i2 => (i2.number == i.number) &&
        (issueResolution issuesDB (sortByAuthored commitsDB) prD i2).isSome)
      (newlyClosed issuesDB since) = some i := by
    refine lastMatching_eq_unique hi ?_ ?_
    · rw [hres]
      simp
    · intro y hy hp
      rw [Bool.and_eq_true] at hp
      have hyn : y.number = i.number := by simpa using hp.1
      exact List.inj_on_of_nodup_map hnodup2 hy hi hyn
  rw [hlm]
  simp only [Option.some_bind]
  rw [hres]
  rfl

/-- Converting the SHA-set cardinality computed by the code into a
plain count of commits, assuming the repository invariant that stored
commit SHAs are unique. -/
theorem sorted_filter_filter_length (commitsDB : List Commit)
    (p q : Commit → Bool) (hsha : (commitsDB.map Commit.sha).Nodup) :
    ((((sortByAuthored commitsDB).filter p).filter q).map Commit.sha).dedup.length =
      ((commitsDB.filter p).filter q).length := by
  have hnodup_sorted : ((sortByAuthored commitsDB).map Commit.sha).Nodup :=
    (List.Perm.nodup_iff ((sortByAuthored_perm commitsDB).map Commit.sha)).mpr hsha
  have hsub : List.Sublist (((sortByAuthored commitsDB).filter p).filter q)
      (sortByAuthored commitsDB) :=
    (List.filter_sublist _).trans (List.filter_sublist _)
  have hnodup2 : ((((sortByAuthored commitsDB).filter p).filter q).map
      Commit.sha).Nodup :=
    List.Nodup.sublist (hsub.map Commit.sha) hnodup_sorted
  rw [List.dedup_eq_self.mpr hnodup2, List.length_map]
  exact (((sortByAuthored_perm commitsDB).filter p).filter q).length_eq

/-! ### Claim C2 -/

/-- Claim C2: for a newly closed non-PR issue `n` referenced by a
closing keyword in the message of a commit with non-null author
`alice`, the commit-based pass records resolver `alice`, artifact that
commit's SHA, and prior-commit count the number of alice's commits
authored strictly before that commit; with several matching commits the
chronologically latest one wins (commits are processed in ascending
authored order, later matches overwriting earlier ones). -/
theorem C2_commit_resolution (issuesDB : List Issue) (commitsDB : List Commit)
    (since : Int) (n : Nat) (c : Commit) (alice : String)
    (hsha : (commitsDB.map Commit.sha).Nodup)
    (hc : c ∈ commitsDB)
    (hauthor : c.author = some alice)
    (hmatch : n ∈ match_issue_numbers c.message)
    (hn : n ∈ (newlyClosed issuesDB since).map Issue.number)
    (hlatest : ∀ c2 ∈ commitsDB, c2.author.isSome = true →
      n ∈ match_issue_numbers c2.message →
      c2 = c ∨ c2.authored_at < c.authored_at) :
    regFind (commitPass ((newlyClosed issuesDB since).map Issue.number)
        (sortByAuthored commitsDB)) n =
      some ⟨n, some alice, Artifact.commit c.sha,
        ((commitsDB.filter (fun c2 => c2.author == some alice)).filter
          (fun c2 => decide (c2.authored_at < c.authored_at))).length⟩ := by
  rw [regFind_commitPass]
  have hlm : lastMatching
      (commitMatches ((newlyClosed issuesDB since).map Issue.number) n)
      (sortByAuthored commitsDB) = some c := by
    refine lastMatching_sorted_strict (sortByAuthored_sorted commitsDB)
      ((sortByAuthored_perm commitsDB).mem_iff.mpr hc) ?_ ?_
    · unfold commitMatches
      rw [hauthor]
      simp [hmatch, hn]
    · intro c2 h2 hp2
      unfold commitMatches at hp2
      rw [Bool.and_eq_true, Bool.and_eq_true] at hp2
      exact hlatest c2 ((sortByAuthored_perm commitsDB).subset h2) hp2.1.1
        (of_decide_eq_true hp2.1.2)
  rw [hlm]
  simp only [Option.map_some']
  unfold commitRecordOf
  rw [hauthor]
  simp only [Option.some.injEq, ResolvedRecord.mk.injEq, true_and]
  exact sorted_filter_filter_length commitsDB _ _ hsha

def c2issue : Issue := ⟨42, some "u", false, some 10, none, none, none⟩
def c2c1 : Commit := ⟨"s1", some "alice", 1, "fixes #42"⟩
def c2c2 : Commit := ⟨"s2", some "alice", 5, "fixes #42"⟩

theorem C2_witness :
    ((42 : Nat) ∈ (newlyClosed [c2issue] 0).map Issue.number) ∧
    regFind (commitPass ((newlyClosed [c2issue] 0).map Issue.number)
        (sortByAuthored [c2c1, c2c2])) 42 =
      some ⟨42, some "alice", Artifact.commit "s2", 1⟩ := by
  refine ⟨by decide, ?_⟩
  have h := C2_commit_resolution [c2issue] [c2c1, c2c2] 0 42 c2c2 "alice"
    (by decide) (by decide) (by decide) (by decide) (by decide) (by decide)
  rw [h]
  decide

/-! ### Claim C1 -/

/-- Claim C1: a newly closed issue with both a qualifying commit-based
candidate and a qualifying PR-based candidate ends up with the PR as
resolving artifact (`resolved_in` is the PR number, never the commit
SHA) and the PR's author as resolver, because the commit pass runs
first and the PR pass unconditionally overwrites the same issue's
entry. -/
theorem C1_pr_overrides_commit (issuesDB : List Issue) (commitsDB : List Commit)
    (prD : Nat → PRDetail) (since : Int) (i : Issue) (pm : Issue × Int)
    (hnodup : (issuesDB.map Issue.number).Nodup)
    (hi : i ∈ newlyClosed issuesDB since)
    (_hcommit : ∃ c ∈ sortByAuthored commitsDB,
      commitMatches ((newlyClosed issuesDB since).map Issue.number) i.number c = true)
    (hlast : lastAcceptedPR issuesDB prD i = some pm) :
    ∃ r, regFind (locate_resolved_issues issuesDB commitsDB prD since) i.number =
        some r ∧
      r.resolved_in = Artifact.pr pm.1.number ∧ r.resolver = pm.1.user :=
  ⟨prRecordOf (sortByAuthored commitsDB) prD i pm,
    regFind_locate_of_lastAccepted issuesDB commitsDB prD since i pm hnodup hi hlast,
    rfl, rfl⟩

def c1issue : Issue := ⟨1, some "bob", false, some 100, none, none, none⟩
def c1pr : Issue := ⟨2, some "carol", true, none, some 130, some "Fixes #1", none⟩
def c1commit : Commit := ⟨"s1", some "alice", 10, "fixes #1"⟩
def c1prD : Nat → PRDetail := fun _ => ⟨[], []⟩

theorem C1_witness :
    (c1issue ∈ newlyClosed [c1issue, c1pr] 0) ∧
    (lastAcceptedPR [c1issue, c1pr] c1prD c1issue = some (c1pr, 130)) ∧
    ∃ r, regFind (locate_resolved_issues [c1issue, c1pr] [c1commit] c1prD 0)
        c1issue.number = some r ∧
      r.resolved_in = Artifact.pr 2 ∧ r.resolver = some "carol" := by
  refine ⟨by decide, by decide, ?_⟩
  exact C1_pr_overrides_commit [c1issue, c1pr] [c1commit] c1prD 0 c1issue (c1pr, 130)
    (by decide) (by decide) (by decide) (by decide)

/-! ### Claim C3 -/

/-- Claim C3: an issue resolved via a pull request gets prior-commit
count equal to the number of the PR author's commits authored strictly
before the PR's merge time whose SHA is not among the PR's constituent
commits. -/
theorem C3_pr_prior_count (issuesDB : List Issue) (commitsDB : List Commit)
    (prD : Nat → PRDetail) (since : Int) (i : Issue) (pm : Issue × Int)
    (hnodupNum : (issuesDB.map Issue.number).Nodup)
    (hsha : (commitsDB.map Commit.sha).Nodup)
    (hi : i ∈ newlyClosed issuesDB since)
    (hlast : lastAcceptedPR issuesDB prD i = some pm) :
    regFind (locate_resolved_issues issuesDB commitsDB prD since) i.number =
      some ⟨i.number, pm.1.user, Artifact.pr pm.1.number,
        ((commitsDB.filter (fun c2 => c2.author == pm.1.user)).filter
          (fun c2 => decide (c2.authored_at < pm.2) &&
            !((prD pm.1.number).commits.contains c2.sha))).length⟩ := by
  rw [regFind_locate_of_lastAccepted issuesDB commitsDB prD since i pm hnodupNum hi
    hlast]
  unfold prRecordOf
  simp only [Option.some.injEq, ResolvedRecord.mk.injEq, true_and]
  exact sorted_filter_filter_length commitsDB _ _ hsha

def c3issue : Issue := ⟨1, some "x", false, some 3, none, none, none⟩
def c3pr : Issue := ⟨9, some "bob", true, none, some 3, some "fixes #1", none⟩
def c3c1 : Commit := ⟨"c1", some "bob", 1, "m1"⟩
def c3c2 : Commit := ⟨"c2", some "bob", 2, "m2"⟩
def c3prD : Nat → PRDetail := fun _ => ⟨[], ["c1"]⟩

theorem C3_witness :
    (lastAcceptedPR [c3issue, c3pr] c3prD c3issue = some (c3pr, 3)) ∧
    regFind (locate_resolved_issues [c3issue, c3pr] [c3c1, c3c2] c3prD 0)
        c3issue.number = some ⟨1, some "bob", Artifact.pr 9, 1⟩ := by
  refine ⟨by decide, ?_⟩
  have h := C3_pr_prior_count [c3issue, c3pr] [c3c1, c3c2] c3prD 0 c3issue (c3pr, 3)
    (by decide) (by decide) (by decide) (by decide)
  rw [h]
  decide

/-! ### Persistence lemmas -/

/-- Lookup in the persisted `db.issues` collection by issue number. -/
def dbFind (db : List FullRecord) (n : Nat) : Option FullRecord :=
  db.find? (fun x => x.record.number == n)

theorem dbFind_replaceOne_self (db : List FullRecord) (r : FullRecord) :
    dbFind (replaceOne db r) r.record.number = some r := by
  induction db with
  | nil =>
    unfold replaceOne dbFind
    simp [List.find?]
  | cons x xs ih =>
    unfold replaceOne
    by_cases hx : x.record.number = r.record.number
    · rw [if_pos hx]
      unfold dbFind
      simp [List.find?]
    · rw [if_neg hx]
      unfold dbFind
      simp only [List.find?]
      have hb : (x.record.number == r.record.number) = false := by
        simp only [beq_eq_false_iff_ne]
        exact hx
      rw [hb]
      exact ih

theorem dbFind_replaceOne_other (db : List FullRecord) (r : FullRecord) (n : Nat)
    (h : r.record.number ≠ n) :
    dbFind (replaceOne db r) n = dbFind db n := by
  have hr : (r.record.number == n) = false := by
    simp only [beq_eq_false_iff_ne]
    exact h
  induction db with
  | nil =>
    unfold replaceOne dbFind
    simp only [List.find?]
    rw [hr]
  | cons x xs ih =>
    unfold replaceOne
    by_cases hx : x.record.number = r.record.number
    · rw [if_pos hx]
      unfold dbFind
      simp only [List.find?]
      have h2 : (x.record.number == n) = false := by
        simp only [beq_eq_false_iff_ne]
        rw [hx]
        exact h
      rw [hr, h2]
    · rw [if_neg hx]
      unfold dbFind
      simp only [List.find?]
      cases hxn : (x.record.number == n)
      · exact ih
      · rfl

theorem replaceOne_eq_self (db : List FullRecord) (r : FullRecord)
    (h : dbFind db r.record.number = some r) : replaceOne db r = db := by
  induction db with
  | nil =>
    unfold dbFind at h
    simp [List.find?] at h
  | cons x xs ih =>
    unfold dbFind at h
    simp only [List.find?] at h
    cases hx : (x.record.number == r.record.number)
    · simp only [hx] at h
      unfold replaceOne
      rw [if_neg (by simpa using hx)]
      rw [ih h]
    · simp only [hx, Option.some.injEq] at h
      unfold replaceOne
      have hxn : x.record.number = r.record.number := by simpa using hx
      rw [if_pos hxn, h]

theorem dbFind_foldl_other (fails : FullRecord → Bool) (rest : List FullRecord)
    (n : Nat) (hne : ∀ x ∈ rest, x.record.number ≠ n) :
    ∀ db, dbFind (rest.foldl (persistStep fails) db) n = dbFind db n := by
  induction rest with
  | nil => intro db; rfl
  | cons x xs ih =>
    intro db
    rw [List.foldl_cons]
    rw [ih (fun y hy => hne y (List.mem_cons_of_mem _ hy))]
    unfold persistStep
    by_cases hf : fails x = true
    · rw [if_pos hf]
    · rw [if_neg hf]
      exact dbFind_replaceOne_other db x n (hne x (List.mem_cons_self _ _))

/-- A record that does not fail is persisted even when other records in
the batch fail, as long as issue numbers in the batch are unique. -/
theorem dbFind_persist (fails : FullRecord → Bool) (r : FullRecord)
    (hok : fails r = false) :
    ∀ (rs : List FullRecord), r ∈ rs →
      (rs.map (fun x => x.record.number)).Nodup →
      ∀ db, dbFind (rs.foldl (persistStep fails) db) r.record.number = some r := by
  intro rs
  induction rs with
  | nil =>
    intro hmem _ _
    simp at hmem
  | cons x xs ih =>
    intro hmem hnodup db
    rw [List.foldl_cons]
    rw [List.map_cons, List.nodup_cons] at hnodup
    rcases List.mem_cons.mp hmem with rfl | h
    · have hne : ∀ y ∈ xs, y.record.number ≠ r.record.number := by
        intro y hy heq
        exact hnodup.1 (heq ▸ List.mem_map_of_mem _ hy)
      rw [dbFind_foldl_other fails xs r.record.number hne]
      unfold persistStep
      rw [if_neg (by simp [hok])]
      exact dbFind_replaceOne_self db r
    · exact ih h hnodup.2 _

theorem persist_idem (rs : List FullRecord)
    (hnodup : (rs.map (fun x => x.record.number)).Nodup) (db : List FullRecord) :
    rs.foldl (persistStep (fun _ => false))
        (rs.foldl (persistStep (fun _ => false)) db) =
      rs.foldl (persistStep (fun _ => false)) db := by
  set db1 := rs.foldl (persistStep (fun _ => false)) db with hdb1
  have hfind : ∀ r ∈ rs, dbFind db1 r.record.number = some r := by
    intro r hr
    rw [hdb1]
    exact dbFind_persist (fun _ => false) r rfl rs hr hnodup db
  have aux : ∀ (l : List FullRecord),
      (∀ r ∈ l, dbFind db1 r.record.number = some r) →
      l.foldl (persistStep (fun _ => false)) db1 = db1 := by
    intro l
    induction l with
    | nil => intro _; rfl
    | cons x xs ih =>
      intro hl
      rw [List.foldl_cons]
      have hx : persistStep (fun _ => false) db1 x = db1 := by
        unfold persistStep
        rw [if_neg (by simp)]
        exact replaceOne_eq_self db1 x (hl x (List.mem_cons_self _ _))
      rw [hx]
      exact ih (fun y hy => hl y (List.mem_cons_of_mem _ hy))
  exact aux rs hfind

theorem located_keys_eq (issuesDB : List Issue) (commitsDB : List Commit)
    (prD : Nat → PRDetail) (since : Int) (getEvents : Nat → List String) :
    (((locate_resolved_issues issuesDB commitsDB prD since).map
        (fun x => FullRecord.mk x (getEvents x.number))).map
      (fun x => x.record.number)) =
      (locate_resolved_issues issuesDB commitsDB prD since).map
        ResolvedRecord.number := by
  rw [List.map_map]
  exact List.map_congr_left (fun r _ => rfl)

/-! ### Claim C9 -/

/-- Claim C9: the located records carry each issue number at most once,
and persistence is an idempotent replace-or-insert keyed by the issue
number — running the sync twice with the same watermark over identical
upstream data returns the identical record list and leaves the stored
collection unchanged. -/
theorem C9_unique_and_idempotent (issuesDB : List Issue) (commitsDB : List Commit)
    (prD : Nat → PRDetail) (since : Int) (getEvents : Nat → List String)
    (dbIssues : List FullRecord) :
    (((locate_resolved_issues issuesDB commitsDB prD since).map
      ResolvedRecord.number).Nodup) ∧
    ((update_resolved_issues issuesDB commitsDB prD since getEvents
        ((update_resolved_issues issuesDB commitsDB prD since getEvents dbIssues
          (fun _ => false)).1) (fun _ => false)).1 =
      (update_resolved_issues issuesDB commitsDB prD since getEvents dbIssues
        (fun _ => false)).1) ∧
    ((update_resolved_issues issuesDB commitsDB prD since getEvents
        ((update_resolved_issues issuesDB commitsDB prD since getEvents dbIssues
          (fun _ => false)).1) (fun _ => false)).2 =
      (update_resolved_issues issuesDB commitsDB prD since getEvents dbIssues
        (fun _ => false)).2) := by
  refine ⟨locate_nodup issuesDB commitsDB prD since, ?_, rfl⟩
  have hnodup : (((locate_resolved_issues issuesDB commitsDB prD since).map
      (fun x => FullRecord.mk x (getEvents x.number))).map
      (fun x => x.record.number)).Nodup := by
    rw [located_keys_eq]
    exact locate_nodup issuesDB commitsDB prD since
  exact persist_idem _ hnodup dbIssues

/-! ### Claim C10 -/

/-- Claim C10: a write failure on a single record (modelled by the
`fails` predicate standing for a caught `WriteError`) is skipped while
all remaining records are still attempted — any non-failing record ends
up stored — and `update_resolved_issues` still returns the full list of
located resolutions. -/
theorem C10_partial_failure_isolation (issuesDB : List Issue)
    (commitsDB : List Commit) (prD : Nat → PRDetail) (since : Int)
    (getEvents : Nat → List String) (dbIssues : List FullRecord)
    (fails : FullRecord → Bool) (r : FullRecord)
    (hmem : r ∈ (update_resolved_issues issuesDB commitsDB prD since getEvents
      dbIssues fails).2)
    (hok : fails r = false) :
    ((update_resolved_issues issuesDB commitsDB prD since getEvents dbIssues
        fails).2 =
      (locate_resolved_issues issuesDB commitsDB prD since).map
        (fun x => FullRecord.mk x (getEvents x.number))) ∧
    dbFind (update_resolved_issues issuesDB commitsDB prD since getEvents dbIssues
      fails).1 r.record.number = some r := by
  refine ⟨rfl, ?_⟩
  have hnodup : (((locate_resolved_issues issuesDB commitsDB prD since).map
      (fun x => FullRecord.mk x (getEvents x.number))).map
      (fun x => x.record.number)).Nodup := by
    rw [located_keys_eq]
    exact locate_nodup issuesDB commitsDB prD since
  exact dbFind_persist fails r hok _ hmem hnodup dbIssues

def c10i1 : Issue := ⟨1, some "u", false, some 0, none, none, none⟩
def c10i2 : Issue := ⟨2, some "v", false, some 0, none, none, none⟩
def c10ca : Commit := ⟨"sa", some "a", 0, "fixes #1"⟩
def c10cb : Commit := ⟨"sb", some "b", 1, "fixes #2"⟩
def c10prD : Nat → PRDetail := fun _ => ⟨[], []⟩

theorem C10_witness :
    ((⟨⟨2, some "b", Artifact.commit "sb", 0⟩, []⟩ : FullRecord) ∈
      (update_resolved_issues [c10i1, c10i2] [c10ca, c10cb] c10prD 0 (fun _ => [])
        [] (fun x => x.record.number == 1)).2) ∧
    dbFind (update_resolved_issues [c10i1, c10i2] [c10ca, c10cb] c10prD 0
        (fun _ => []) [] (fun x => x.record.number == 1)).1 2 =
      some ⟨⟨2, some "b", Artifact.commit "sb", 0⟩, []⟩ := by
  refine ⟨by decide, ?_⟩
  exact (C10_partial_failure_isolation [c10i1, c10i2] [c10ca, c10cb] c10prD 0
    (fun _ => []) [] (fun x => x.record.number == 1)
    ⟨⟨2, some "b", Artifact.commit "sb", 0⟩, []⟩ (by decide) (by decide)).2

/-! ### Claim C6: exact characterization of the closing-keyword extractor -/

/-- The nine closing verbs of the regex
`(close[sd]?|fix(es|ed)?|resolve[sd]?)`. -/
def verbs : List (List Char) :=
  [['c', 'l', 'o', 's', 'e'], ['c', 'l', 'o', 's', 'e', 's'],
   ['c', 'l', 'o', 's', 'e', 'd'],
   ['f', 'i', 'x'], ['f', 'i', 'x', 'e', 's'], ['f', 'i', 'x', 'e', 'd'],
   ['r', 'e', 's', 'o', 'l', 'v', 'e'], ['r', 'e', 's', 'o', 'l', 'v', 'e', 's'],
   ['r', 'e', 's', 'o', 'l', 'v', 'e', 'd']]

/-- The claim's predicate: somewhere in `cs` one of the closing verbs
occurs, immediately followed by a space and a `#`-prefixed maximal
digit run whose value is `n`. -/
def closingOccurrence (cs : List Char) (n : Nat) : Prop :=
  ∃ pre v ds post, v ∈ verbs ∧ ds ≠ [] ∧ (∀ d ∈ ds, d.isDigit = true) ∧
    (∀ c ∈ post.head?, c.isDigit = false) ∧
    cs = pre ++ v ++ [' ', '#'] ++ ds ++ post ∧ digitsToNat ds = n

theorem matchLit_eq_some {l cs r : List Char} :
    matchLit l cs = some r ↔ cs = l ++ r := by
  induction l generalizing cs with
  | nil =>
    unfold matchLit
    simp
  | cons x ls ih =>
    cases cs with
    | nil =>
      unfold matchLit
      simp
    | cons c cs2 =>
      unfold matchLit
      by_cases hc : c = x
      · rw [if_pos hc]
        rw [ih]
        subst hc
        simp
      · rw [if_neg hc]
        simp only [List.cons_append, List.cons.injEq]
        constructor
        · intro h
          simp at h
        · intro h
          exact absurd h.1 hc

theorem matchLit_append (l r : List Char) : matchLit l (l ++ r) = some r :=
  matchLit_eq_some.mpr rfl

theorem takeWhile_dropWhile_append {p : Char → Bool} {ds r : List Char}
    (hds : ∀ d ∈ ds, p d = true) (hr : ∀ c ∈ r.head?, p c = false) :
    (ds ++ r).takeWhile p = ds ∧ (ds ++ r).dropWhile p = r := by
  induction ds with
  | nil =>
    simp only [List.nil_append]
    cases r with
    | nil => exact ⟨rfl, rfl⟩
    | cons c r2 =>
      have hc : p c = false := hr c rfl
      rw [List.takeWhile_cons, List.dropWhile_cons, hc]
      exact ⟨rfl, rfl⟩
  | cons d ds2 ih =>
    have hd : p d = true := hds d (List.mem_cons_self _ _)
    have ih2 := ih (fun x hx => hds x (List.mem_cons_of_mem _ hx))
    simp only [List.cons_append, List.takeWhile_cons, List.dropWhile_cons, hd]
    simp only [if_true]
    exact ⟨by rw [ih2.1], by rw [ih2.2]⟩

theorem matchTail_build {ds post : List Char} (hne : ds ≠ [])
    (hds : ∀ d ∈ ds, d.isDigit = true)
    (hpost : ∀ c ∈ post.head?, c.isDigit = false) :
    matchTail (' ' :: '#' :: (ds ++ post)) = some (digitsToNat ds, post) := by
  unfold matchTail
  have h := takeWhile_dropWhile_append hds hpost
  simp only [h.1, h.2]
  rw [if_neg]
  simp only [List.isEmpty_iff]
  exact hne

theorem matchTail_eq_some {cs : List Char} {n : Nat} {r : List Char}
    (h : matchTail cs = some (n, r)) :
    ∃ ds, cs = ' ' :: '#' :: (ds ++ r) ∧ ds ≠ [] ∧
      (∀ d ∈ ds, d.isDigit = true) ∧ (∀ c ∈ r.head?, c.isDigit = false) ∧
      digitsToNat ds = n := by
  unfold matchTail at h
  split at h
  case _ rest =>
    by_cases hemp : (rest.takeWhile Char.isDigit).isEmpty = true
    · rw [if_pos hemp] at h
      simp at h
    · rw [if_neg hemp] at h
      rw [Option.some.injEq, Prod.mk.injEq] at h
      refine ⟨rest.takeWhile Char.isDigit, ?_, ?_, ?_, ?_, h.1⟩
      · rw [← h.2, List.takeWhile_append_dropWhile]
      · intro hnil
        rw [hnil] at hemp
        simp at hemp
      · intro d hd
        exact List.mem_takeWhile_imp hd
      · intro c hc
        rw [← h.2] at hc
        have := List.head?_dropWhile_not Char.isDigit rest
        rcases hh : (rest.dropWhile Char.isDigit).head? with _ | y
        · rw [hh] at hc
          simp at hc
        · rw [hh] at this hc
          simp only [] at this
          simp only [Option.mem_def, Option.some.injEq] at hc
          rw [hc] at this
          exact this
  case _ =>
    simp at h

theorem tryOptSuffix_empty_hit {cs : List Char} {n : Nat} {r : List Char}
    {sufs : List (List Char)}
    (hfail : ∀ s ∈ sufs, matchLit s cs = none)
    (htail : matchTail cs = some (n, r)) :
    tryOptSuffix sufs cs = some (n, r) := by
  induction sufs with
  | nil => exact htail
  | cons s ss ih =>
    unfold tryOptSuffix
    rw [hfail s (List.mem_cons_self _ _)]
    exact ih (fun s2 h2 => hfail s2 (List.mem_cons_of_mem _ h2))

theorem tryOptSuffix_hit {s : List Char} {ss : List (List Char)}
    {cs cs2 : List Char} {n : Nat} {r : List Char}
    (hlit : matchLit s cs = some cs2) (htail : matchTail cs2 = some (n, r)) :
    tryOptSuffix (s :: ss) cs = some (n, r) := by
  unfold tryOptSuffix
  simp only [hlit, htail]

theorem tryOptSuffix_sound {sufs : List (List Char)} {cs : List Char}
    {n : Nat} {r : List Char} (h : tryOptSuffix sufs cs = some (n, r)) :
    matchTail cs = some (n, r) ∨
      ∃ s ∈ sufs, ∃ cs2, matchLit s cs = some cs2 ∧ matchTail cs2 = some (n, r) := by
  induction sufs with
  | nil => exact Or.inl h
  | cons s ss ih =>
    unfold tryOptSuffix at h
    rcases hlit : matchLit s cs with _ | cs2
    · simp only [hlit] at h
      rcases ih h with h2 | ⟨s2, hs2, cs3, h3, h4⟩
      · exact Or.inl h2
      · exact Or.inr ⟨s2, List.mem_cons_of_mem _ hs2, cs3, h3, h4⟩
    · simp only [hlit] at h
      rcases htail : matchTail cs2 with _ | pr
      · simp only [htail] at h
        rcases ih h with h2 | ⟨s2, hs2, cs3, h3, h4⟩
        · exact Or.inl h2
        · exact Or.inr ⟨s2, List.mem_cons_of_mem _ hs2, cs3, h3, h4⟩
      · simp only [htail, Option.some.injEq] at h
        subst h
        exact Or.inr ⟨s, List.mem_cons_self _ _, cs2, hlit, htail⟩

theorem tryOptSuffix_step {s : List Char} {ss : List (List Char)} {cs : List Char}
    (hfail : matchLit s cs = none) :
    tryOptSuffix (s :: ss) cs = tryOptSuffix ss cs := by
  conv_lhs => unfold tryOptSuffix
  simp only [hfail]

/-- An occurrence at the very front of the text is found by the
anchored matcher, capturing exactly its number and remainder. -/
theorem matchKeywordAt_front {v ds post : List Char} (hv : v ∈ verbs)
    (hne : ds ≠ []) (hds : ∀ d ∈ ds, d.isDigit = true)
    (hpost : ∀ c ∈ post.head?, c.isDigit = false) :
    matchKeywordAt (v ++ [' ', '#'] ++ ds ++ post) = some (digitsToNat ds, post) := by
  have htail := matchTail_build hne hds hpost
  fin_cases hv
  · show tryOptSuffix [['s'], ['d']] (' ' :: '#' :: (ds ++ post)) =
      some (digitsToNat ds, post)
    exact tryOptSuffix_empty_hit (by intro s hs; fin_cases hs <;> rfl) htail
  · show tryOptSuffix [['s'], ['d']] ('s' :: ' ' :: '#' :: (ds ++ post)) =
      some (digitsToNat ds, post)
    exact tryOptSuffix_hit (matchLit_append ['s'] _) htail
  · show tryOptSuffix [['s'], ['d']] ('d' :: ' ' :: '#' :: (ds ++ post)) =
      some (digitsToNat ds, post)
    refine (tryOptSuffix_step ?_).trans
      (tryOptSuffix_hit (matchLit_append ['d'] _) htail)
    rfl
  · show tryOptSuffix [['e', 's'], ['e', 'd']] (' ' :: '#' :: (ds ++ post)) =
      some (digitsToNat ds, post)
    exact tryOptSuffix_empty_hit (by intro s hs; fin_cases hs <;> rfl) htail
  · show tryOptSuffix [['e', 's'], ['e', 'd']] ('e' :: 's' :: ' ' :: '#' :: (ds ++ post)) =
      some (digitsToNat ds, post)
    exact tryOptSuffix_hit (matchLit_append ['e', 's'] _) htail
  · show tryOptSuffix [['e', 's'], ['e', 'd']] ('e' :: 'd' :: ' ' :: '#' :: (ds ++ post)) =
      some (digitsToNat ds, post)
    refine (tryOptSuffix_step ?_).trans
      (tryOptSuffix_hit (matchLit_append ['e', 'd'] _) htail)
    rfl
  · show tryOptSuffix [['s'], ['d']] (' ' :: '#' :: (ds ++ post)) =
      some (digitsToNat ds, post)
    exact tryOptSuffix_empty_hit (by intro s hs; fin_cases hs <;> rfl) htail
  · show tryOptSuffix [['s'], ['d']] ('s' :: ' ' :: '#' :: (ds ++ post)) =
      some (digitsToNat ds, post)
    exact tryOptSuffix_hit (matchLit_append ['s'] _) htail
  · show tryOptSuffix [['s'], ['d']] ('d' :: ' ' :: '#' :: (ds ++ post)) =
      some (digitsToNat ds, post)
    refine (tryOptSuffix_step ?_).trans
      (tryOptSuffix_hit (matchLit_append ['d'] _) htail)
    rfl

theorem branch_sound {base : List Char} {sufs : List (List Char)}
    {cs cs2 : List Char} {n : Nat} {r : List Char}
    (hbase : matchLit base cs = some cs2)
    (h : tryOptSuffix sufs cs2 = some (n, r))
    (hverb : base ∈ verbs) (hverbs : ∀ s ∈ sufs, base ++ s ∈ verbs) :
    ∃ v ds, v ∈ verbs ∧ ds ≠ [] ∧ (∀ d ∈ ds, d.isDigit = true) ∧
      (∀ c ∈ r.head?, c.isDigit = false) ∧
      cs = v ++ [' ', '#'] ++ ds ++ r ∧ digitsToNat ds = n := by
  have hcs := matchLit_eq_some.mp hbase
  rcases tryOptSuffix_sound h with ht | ⟨s, hs, cs3, hlit, ht⟩
  · obtain ⟨ds, hcs2, hne, hds, hr, hval⟩ := matchTail_eq_some ht
    refine ⟨base, ds, hverb, hne, hds, hr, ?_, hval⟩
    rw [hcs, hcs2]
    simp [List.append_assoc]
  · obtain ⟨ds, hcs3, hne, hds, hr, hval⟩ := matchTail_eq_some ht
    have hcs2 := matchLit_eq_some.mp hlit
    refine ⟨base ++ s, ds, hverbs s hs, hne, hds, hr, ?_, hval⟩
    rw [hcs, hcs2, hcs3]
    simp [List.append_assoc]

/-- Every successful anchored match decomposes the text as a verb, a
space, a hash, a maximal digit run, and the remainder. -/
theorem matchKeywordAt_sound {cs : List Char} {n : Nat} {r : List Char}
    (h : matchKeywordAt cs = some (n, r)) :
    ∃ v ds, v ∈ verbs ∧ ds ≠ [] ∧ (∀ d ∈ ds, d.isDigit = true) ∧
      (∀ c ∈ r.head?, c.isDigit = false) ∧
      cs = v ++ [' ', '#'] ++ ds ++ r ∧ digitsToNat ds = n := by
  unfold matchKeywordAt at h
  rcases h1 : matchLit closeChars cs with _ | cs2
  · simp only [h1] at h
    rcases h2 : matchLit fixChars cs with _ | cs2
    · simp only [h2] at h
      rcases h3 : matchLit resolveChars cs with _ | cs2
      · simp only [h3] at h
        exact Option.noConfusion h
      · simp only [h3] at h
        exact branch_sound h3 h (by decide) (by decide)
    · simp only [h2] at h
      exact branch_sound h2 h (by decide) (by decide)
  · simp only [h1] at h
    exact branch_sound h1 h (by decide) (by decide)

theorem matchKeywordAt_length {cs : List Char} {n : Nat} {r : List Char}
    (h : matchKeywordAt cs = some (n, r)) : r.length < cs.length := by
  obtain ⟨v, ds, hv, hne, _, _, heq, _⟩ := matchKeywordAt_sound h
  have hvlen : 1 ≤ v.length := by
    fin_cases hv <;> decide
  have hdslen : 1 ≤ ds.length := by
    cases ds with
    | nil => exact absurd rfl hne
    | cons d ds2 => simp
  rw [heq]
  simp only [List.length_append, List.length_cons, List.length_nil]
  omega

theorem closingOccurrence_cons {c : Char} {cs : List Char} {n : Nat}
    (h : closingOccurrence cs n) : closingOccurrence (c :: cs) n := by
  obtain ⟨pre, v, ds, post, h1, h2, h3, h4, h5, h6⟩ := h
  exact ⟨c :: pre, v, ds, post, h1, h2, h3, h4, by rw [h5]; rfl, h6⟩

theorem closingOccurrence_append (x : List Char) {cs : List Char} {n : Nat}
    (h : closingOccurrence cs n) : closingOccurrence (x ++ cs) n := by
  induction x with
  | nil => exact h
  | cons c x2 ih => exact closingOccurrence_cons ih

/-- Soundness: every number reported by the scan is a genuine closing
occurrence. -/
theorem scanAux_sound : ∀ (fuel : Nat) (cs : List Char) (n : Nat),
    n ∈ scanAux fuel cs → closingOccurrence cs n := by
  intro fuel
  induction fuel with
  | zero =>
    intro cs n h
    cases cs <;> simp [scanAux] at h
  | succ fuel ih =>
    intro cs n h
    cases cs with
    | nil => simp [scanAux] at h
    | cons c cs2 =>
      simp only [scanAux] at h
      rcases hm : matchKeywordAt (c :: cs2) with _ | pr
      · simp only [hm] at h
        exact closingOccurrence_cons (ih cs2 n h)
      · rcases pr with ⟨m, rest⟩
        simp only [hm] at h
        rcases List.mem_cons.mp h with rfl | h2
        · obtain ⟨v, ds, hv, hne, hds, hr, heq, hval⟩ := matchKeywordAt_sound hm
          exact ⟨[], v, ds, rest, hv, hne, hds, hr, by rw [heq]; rfl, hval⟩
        · have hocc := ih rest n h2
          obtain ⟨v, ds, hv, hne, hds, hr, heq, hval⟩ := matchKeywordAt_sound hm
          rw [heq, List.append_assoc, List.append_assoc]
          exact closingOccurrence_append v
            (closingOccurrence_append [' ', '#'] (closingOccurrence_append ds hocc))

/-- The characters a closing verb can start with. -/
def isStartChar (c : Char) : Bool := c == 'c' || c == 'f' || c == 'r'

theorem verb_alpha : ∀ v ∈ verbs, ∀ c ∈ v, c.isAlpha = true := by decide

theorem verb_head_start : ∀ v ∈ verbs, ∀ c ∈ v.head?, isStartChar c = true := by
  decide

theorem verb_suffix_eq : ∀ u ∈ verbs, ∀ v ∈ verbs, List.IsSuffix u v → u = v := by
  decide

theorem digit_not_start {c : Char} (h : c.isDigit = true) : isStartChar c = false := by
  by_contra hc
  rw [Bool.not_eq_false] at hc
  unfold isStartChar at hc
  rw [Bool.or_eq_true, Bool.or_eq_true] at hc
  rcases hc with (hc | hc) | hc <;>
    (have hce := eq_of_beq hc; subst hce; exact absurd h (by decide))

/-- Two all-letter words followed by a space inside the same string must
coincide. -/
theorem alpha_space_align : ∀ (w : List Char), (∀ c ∈ w, c.isAlpha = true) →
    ∀ {v : List Char}, (∀ c ∈ v, c.isAlpha = true) →
    ∀ {xs ys : List Char}, w ++ ' ' :: xs = v ++ ' ' :: ys → w = v ∧ xs = ys := by
  intro w
  induction w with
  | nil =>
    intro _ v hv xs ys h
    cases v with
    | nil =>
      simp only [List.nil_append, List.cons.injEq] at h
      exact ⟨rfl, h.2⟩
    | cons a v2 =>
      simp only [List.nil_append, List.cons_append, List.cons.injEq] at h
      have ha := hv a (List.mem_cons_self _ _)
      rw [← h.1] at ha
      exact absurd ha (by decide)
  | cons c w2 ih =>
    intro hw v hv xs ys h
    cases v with
    | nil =>
      simp only [List.cons_append, List.nil_append, List.cons.injEq] at h
      have hc := hw c (List.mem_cons_self _ _)
      rw [h.1] at hc
      exact absurd hc (by decide)
    | cons a v2 =>
      simp only [List.cons_append, List.cons.injEq] at h
      obtain ⟨h1, h2⟩ := h
      have hrec := ih (fun x hx => hw x (List.mem_cons_of_mem _ hx))
        (fun x hx => hv x (List.mem_cons_of_mem _ hx)) h2
      exact ⟨by rw [h1, hrec.1], hrec.2⟩

/-- Two maximal digit runs starting at the same position coincide. -/
theorem digit_run_unique : ∀ (d1 : List Char), (∀ c ∈ d1, c.isDigit = true) →
    ∀ {d2 r1 r2 : List Char}, (∀ c ∈ d2, c.isDigit = true) →
    (∀ c ∈ r1.head?, c.isDigit = false) → (∀ c ∈ r2.head?, c.isDigit = false) →
    d1 ++ r1 = d2 ++ r2 → d1 = d2 ∧ r1 = r2 := by
  intro d1
  induction d1 with
  | nil =>
    intro _ d2 r1 r2 h2 hr1 hr2 h
    cases d2 with
    | nil => exact ⟨rfl, by simpa using h⟩
    | cons e d2t =>
      simp only [List.nil_append, List.cons_append] at h
      have he : e.isDigit = true := h2 e (List.mem_cons_self _ _)
      have hf := hr1 e (by rw [h]; rfl)
      simp [hf] at he
  | cons c d1t ih =>
    intro h1 d2 r1 r2 h2 hr1 hr2 h
    cases d2 with
    | nil =>
      simp only [List.cons_append, List.nil_append] at h
      have hc : c.isDigit = true := h1 c (List.mem_cons_self _ _)
      have hf := hr2 c (by rw [← h]; rfl)
      simp [hf] at hc
    | cons e d2t =>
      simp only [List.cons_append, List.cons.injEq] at h
      obtain ⟨h3, h4⟩ := h
      have hrec := ih (fun x hx => h1 x (List.mem_cons_of_mem _ hx))
        (fun x hx => h2 x (List.mem_cons_of_mem _ hx)) hr1 hr2 h4
      exact ⟨by rw [h3, hrec.1], hrec.2⟩

/-- An occurrence cannot start inside a region of characters that no
verb starts with. -/
theorem shift_through_nonstart : ∀ (u : List Char),
    (∀ c ∈ u, isStartChar c = false) →
    ∀ {rest pre occ : List Char}, (∀ c ∈ occ.head?, isStartChar c = true) →
    u ++ rest = pre ++ occ → ∃ pre2, rest = pre2 ++ occ := by
  intro u
  induction u with
  | nil =>
    intro _ rest pre occ _ h
    exact ⟨pre, by simpa using h⟩
  | cons c u2 ih =>
    intro hu rest pre occ hocc h
    cases pre with
    | nil =>
      simp only [List.nil_append] at h
      have hc := hu c (List.mem_cons_self _ _)
      have hh := hocc c (by rw [← h]; rfl)
      simp [hh] at hc
    | cons p pre2 =>
      simp only [List.cons_append, List.cons.injEq] at h
      exact ih (fun x hx => hu x (List.mem_cons_of_mem _ hx)) hocc h.2

/-- An occurrence cannot start strictly inside the matched verb: its
verb would be a proper suffix of the matched verb, and no closing verb
is a suffix of another. -/
theorem shift_through_word : ∀ (w : List Char), (∀ c ∈ w, c.isAlpha = true) →
    (∀ u ∈ verbs, ¬ List.IsSuffix u w) →
    ∀ {rest pre v tail : List Char}, v ∈ verbs →
    w ++ ' ' :: rest = pre ++ (v ++ ' ' :: tail) →
    ∃ pre2, (' ' :: rest : List Char) = pre2 ++ (v ++ ' ' :: tail) := by
  intro w
  induction w with
  | nil =>
    intro _ _ rest pre v tail _ h
    exact ⟨pre, by simpa using h⟩
  | cons c w2 ih =>
    intro hw hnosuf rest pre v tail hv h
    cases pre with
    | nil =>
      simp only [List.nil_append] at h
      obtain ⟨hveq, _⟩ := alpha_space_align (c :: w2) hw (verb_alpha v hv) h
      exact absurd ⟨[], by simp [hveq]⟩ (hnosuf v hv)
    | cons p pre2 =>
      simp only [List.cons_append, List.cons.injEq] at h
      refine ih (fun x hx => hw x (List.mem_cons_of_mem _ hx)) ?_ hv h.2
      intro u hu hsuf
      exact hnosuf u hu (hsuf.trans (List.suffix_cons c w2))

/-- The overlap lemma: any occurrence inside a text whose front matches
is either the very match (same number) or lies entirely within the
remainder after the match. -/
theorem matchKeywordAt_overlap {cs : List Char} {m n : Nat} {rest : List Char}
    (hm : matchKeywordAt cs = some (m, rest)) (ho : closingOccurrence cs n) :
    n = m ∨ closingOccurrence rest n := by
  obtain ⟨v2, ds2, hv2, hne2, hds2, hr2, heq2, hval2⟩ := matchKeywordAt_sound hm
  obtain ⟨pre, v, ds, post, hv, hne, hds, hpost, heq, hval⟩ := ho
  have e : pre ++ (v ++ (' ' :: '#' :: (ds ++ post))) =
      v2 ++ (' ' :: '#' :: (ds2 ++ rest)) := by
    have e0 := heq.symm.trans heq2
    simpa only [List.append_assoc, List.cons_append, List.nil_append] using e0
  cases pre with
  | nil =>
    left
    simp only [List.nil_append] at e
    obtain ⟨hveq, htails⟩ := alpha_space_align v (verb_alpha v hv)
      (verb_alpha v2 hv2) e
    have htl : ds ++ post = ds2 ++ rest := by
      injection htails
    have hdu := digit_run_unique ds hds hds2 hpost hr2 htl
    rw [← hval, ← hval2, hdu.1]
  | cons c pre2 =>
    right
    rcases hvshape : v2 with _ | ⟨c2, v2t⟩
    · rw [hvshape] at hv2
      exact absurd hv2 (by decide)
    · rw [hvshape] at e
      simp only [List.cons_append, List.cons.injEq] at e
      have hw : ∀ x ∈ v2t, x.isAlpha = true := fun x hx =>
        verb_alpha v2 hv2 x (by rw [hvshape]; exact List.mem_cons_of_mem _ hx)
      have hnosuf : ∀ u ∈ verbs, ¬ List.IsSuffix u v2t := by
        intro u hu hsuf
        have hsuf2 : List.IsSuffix u v2 := by
          rw [hvshape]
          exact hsuf.trans (List.suffix_cons c2 v2t)
        have hueq := verb_suffix_eq u hu v2 hv2 hsuf2
        have hlen := hsuf.length_le
        rw [hueq, hvshape] at hlen
        simp at hlen
      obtain ⟨pre3, h3⟩ := shift_through_word v2t hw hnosuf hv e.2.symm
      have h3b : ((' ' :: '#' :: ds2 : List Char) ++ rest) =
          pre3 ++ (v ++ (' ' :: '#' :: (ds ++ post))) := by
        simp only [List.cons_append]
        exact h3
      have hu : ∀ x ∈ (' ' :: '#' :: ds2 : List Char), isStartChar x = false := by
        intro x hx
        rcases List.mem_cons.mp hx with rfl | hx2
        · decide
        · rcases List.mem_cons.mp hx2 with rfl | hx3
          · decide
          · exact digit_not_start (hds2 x hx3)
      have hocc : ∀ x ∈ (v ++ (' ' :: '#' :: (ds ++ post))).head?,
          isStartChar x = true := by
        intro x hx
        rcases hvs : v with _ | ⟨cv, vt⟩
        · rw [hvs] at hv
          exact absurd hv (by decide)
        · rw [hvs] at hx
          simp only [List.cons_append, List.head?_cons] at hx
          have hxcv : cv = x := by simpa using hx
          exact verb_head_start v hv x (by rw [hvs]; simp [List.head?_cons, hxcv])
      obtain ⟨pre4, h4⟩ := shift_through_nonstart (' ' :: '#' :: ds2) hu hocc h3b
      refine ⟨pre4, v, ds, post, hv, hne, hds, hpost, ?_, hval⟩
      rw [h4]
      simp [List.append_assoc]

/-- Completeness: every closing occurrence is reported by the scan,
provided the fuel covers the text length. -/
theorem scanAux_complete : ∀ (fuel : Nat) {cs : List Char} {n : Nat},
    cs.length ≤ fuel → closingOccurrence cs n → n ∈ scanAux fuel cs := by
  intro fuel
  induction fuel with
  | zero =>
    intro cs n hlen ho
    cases cs with
    | nil =>
      obtain ⟨pre, v, ds, post, hv, hne, _, _, heq, _⟩ := ho
      have hvne : v ≠ [] := by
        intro hveq
        rw [hveq] at hv
        exact absurd hv (by decide)
      have := heq.symm
      simp only [List.append_eq_nil] at this
      exact absurd this.1.1.1.2 hvne
    | cons c cs2 => simp at hlen
  | succ fuel ih =>
    intro cs n hlen ho
    cases cs with
    | nil =>
      obtain ⟨pre, v, ds, post, hv, hne, _, _, heq, _⟩ := ho
      have hvne : v ≠ [] := by
        intro hveq
        rw [hveq] at hv
        exact absurd hv (by decide)
      have := heq.symm
      simp only [List.append_eq_nil] at this
      exact absurd this.1.1.1.2 hvne
    | cons c cs2 =>
      simp only [scanAux]
      rcases hm : matchKeywordAt (c :: cs2) with _ | pr
      · simp only [hm]
        obtain ⟨pre, v, ds, post, hv, hne, hds, hpost, heq, hval⟩ := ho
        cases pre with
        | nil =>
          exfalso
          have hfront := matchKeywordAt_front hv hne hds hpost
          rw [heq] at hm
          rw [show (([] : List Char) ++ v ++ [' ', '#'] ++ ds ++ post) =
            v ++ [' ', '#'] ++ ds ++ post by simp] at hm
          rw [hfront] at hm
          exact Option.noConfusion hm
        | cons p pre2 =>
          have heq2 := heq
          simp only [List.cons_append, List.cons.injEq] at heq2
          have hocc2 : closingOccurrence cs2 n :=
            ⟨pre2, v, ds, post, hv, hne, hds, hpost, heq2.2, hval⟩
          refine ih ?_ hocc2
          simp only [List.length_cons] at hlen
          omega
      · rcases pr with ⟨m, rest⟩
        simp only [hm]
        rcases matchKeywordAt_overlap hm ho with rfl | hocc2
        · exact List.mem_cons_self _ _
        · refine List.mem_cons_of_mem _ ?_
          have hlt := matchKeywordAt_length hm
          refine ih ?_ hocc2
          simp only [List.length_cons] at hlen hlt
          omega

/-! ### Claim C6 -/

/-- Claim C6: the closing-keyword extractor returns exactly the numbers
`n` such that one of the nine closing verbs occurs in the lower-cased
text immediately followed by a space and `#n` (a maximal digit run),
case-insensitively, with every left-to-right match contributing; it
matches "Closes #7", "FIXED #7" and "resolve #7", and rejects
"#7 closes" and "closes7". -/
theorem C6_closing_keyword_extractor :
    (∀ (text : String) (n : Nat),
      n ∈ match_issue_numbers text ↔
        closingOccurrence (text.data.map Char.toLower) n) ∧
    match_issue_numbers "Closes #7" = [7] ∧
    match_issue_numbers "FIXED #7" = [7] ∧
    match_issue_numbers "resolve #7" = [7] ∧
    match_issue_numbers "#7 closes" = [] ∧
    match_issue_numbers "closes7" = [] ∧
    match_issue_numbers "fixes #1, resolved #23" = [1, 23] := by
  refine ⟨?_, by decide, by decide, by decide, by decide, by decide, by decide⟩
  intro text n
  constructor
  · intro h
    exact scanAux_sound _ _ _ h
  · intro h
    exact scanAux_complete _ (le_refl _) h

/-! Sanity checks on concrete inputs. -/

example : match_issue_numbers "Closes #7" = [7] := by decide
example : match_issue_numbers "FIXED #7" = [7] := by decide
example : match_issue_numbers "resolve #7" = [7] := by decide
example : match_issue_numbers "#7 closes" = [] := by decide
example : match_issue_numbers "closes7" = [] := by decide
example : match_issue_numbers "fixes #1 and closes #23" = [1, 23] := by decide

end GfiBot
